import Mathlib

/-!
Shallow embedding of `src/payload_generator/full_update_generator.cc`
(class `ChunkProcessor` and `FullUpdateGenerator::Run`), together with
proofs about the emitted install operations, the payload cursor, the
rootfs graph, the progress reporter and termination of the scheduling
loop.

Modelling conventions:
* byte buffers (`chromeos::Blob`) are lists of naturals;
* the environment (`Env`) packages the deterministic external
  collaborators: the partition files, the compression primitive
  (`BzipCompress`, an opaque deterministic transform that may fail),
  whether `g_thread_try_new` succeeds for a given spawn, and whether
  `utils::WriteAll` succeeds for a given write;
* a chunk worker's read-and-compress result is a pure function of the
  file contents, so the thread body is evaluated at `Start` time and
  `thread_` holds the eventual join result (`some r`), or `none` when
  no joinable thread exists;
* `off_t` values that can go negative (`bytes_left`) are `Int`;
  all other counters are `Nat`;
* the `while` loops are embedded with an explicit iteration budget:
  the inner fill loop's budget is `max_threads - threads.size()`
  (exactly the number of iterations its own guard allows, since each
  iteration pushes one worker), and the outer loop gets fuel
  `partition_size + 1`, proved sufficient below (claim C10), so the
  `none` (out-of-fuel) branch is unreachable.
-/

namespace FullUpdate

abbrev Blob := List Nat

/-- `Extent` message: a run of destination blocks. -/
structure Extent where
  start_block : Nat
  num_blocks : Nat
deriving DecidableEq

/-- `DeltaArchiveManifest_InstallOperation_Type`: the two kinds used here. -/
inductive OpType where
  | REPLACE
  | REPLACE_BZ
deriving DecidableEq

/-- `DeltaArchiveManifest_InstallOperation`, restricted to the fields this
generator sets; unset proto fields are modelled by their default values. -/
structure InstallOperation where
  type : OpType := .REPLACE
  data_offset : Nat := 0
  data_length : Nat := 0
  dst_extents : List Extent := []
deriving DecidableEq

/-- A `Vertex` of the operation graph: its synthetic label and operation. -/
structure Vertex where
  file_name : String := ""
  op : InstallOperation := {}
deriving DecidableEq

/-- The slice of `PayloadGenerationConfig` that `FullUpdateGenerator::Run`
reads. `valid` stands for the outcome of `config.Validate()`, an external
check. `chunk_size` is checked positive by `Run` itself, so non-positive
values are collapsed to `0`. -/
structure PayloadGenerationConfig where
  valid : Bool
  chunk_size : Nat
  block_size : Nat
  rootfs_size : Nat
  kernel_size : Nat
deriving DecidableEq

/-- Deterministic external collaborators of the generator. -/
structure Env where
  nprocessors : Int
  bzip : Blob → Option Blob
  file0 : Option Blob
  file1 : Option Blob
  startOk : Nat → Nat → Bool
  writeOk : Nat → Blob → Bool

/-- The caller-visible mutable state: the payload cursor `*data_file_size`,
the bytes appended to the payload descriptor, the out-parameters `graph`,
`kernel_ops` and `final_order`, and the sequence of emitted progress log
lines. -/
structure RunState where
  data_file_size : Nat
  payload : Blob
  graph : List Vertex
  kernel_ops : List InstallOperation
  final_order : List Nat
  log : List Int
deriving DecidableEq

/-- All operations emitted so far, in emission order (rootfs ones live in
the graph, kernel ones in `kernel_ops`; rootfs is processed first). -/
def opsOf (st : RunState) : List InstallOperation :=
  st.graph.map Vertex.op ++ st.kernel_ops

/-- `ChunkProcessor`: one full-update chunk processing thread. -/
structure ChunkProcessor where
  offset : Nat
  buffer_in : Blob
  buffer_compressed : Blob
  thread : Option Bool
deriving DecidableEq

namespace ChunkProcessor

/-- The constructor: `buffer_in_(size)` allocates a zeroed buffer. -/
def create (offset size : Nat) : ChunkProcessor :=
  ⟨offset, List.replicate size 0, [], none⟩

/-- `Start` plus the spawned thread's whole `ReadAndCompress` body:
`PReadAll` delivers `min(size, file_size - offset)` bytes into the front
of `buffer_in_`; the read fails the chunk if it is short, otherwise
`BzipCompress` fills `buffer_compressed_` or fails the chunk.  The join
result of the thread is cached in `thread` as `some result`. -/
def Start (bzip : Blob → Option Blob) (file : Blob) (p : ChunkProcessor) :
    ChunkProcessor :=
  let readBytes := (file.drop p.offset).take p.buffer_in.length
  let filled := readBytes ++ p.buffer_in.drop readBytes.length
  if readBytes.length = p.buffer_in.length then
    match bzip filled with
    | some comp =>
        { p with buffer_in := filled, buffer_compressed := comp, thread := some true }
    | none => { p with buffer_in := filled, thread := some false }
  else { p with buffer_in := filled, thread := some false }

/-- `ChunkProcessor::Wait`: returns `false` when `thread_` is null,
otherwise joins (clearing `thread_`) and returns the thread's result. -/
def Wait (p : ChunkProcessor) : Bool × ChunkProcessor :=
  match p.thread with
  | none => (false, p)
  | some r => (r, { p with thread := none })

/-- `ChunkProcessor::ShouldCompress`. -/
def ShouldCompress (p : ChunkProcessor) : Bool :=
  p.buffer_compressed.length < p.buffer_in.length

end ChunkProcessor

/-- The label `StringPrintf("<rootfs-operation-%" PRIi64 ">", counter)`. -/
def rootfsLabel (counter : Int) : String :=
  "<rootfs-operation-" ++ toString counter ++ ">"

/-- Replace the final element of a list, if any. -/
def modifyEnd {α : Type} (f : α → α) : List α → List α
  | [] => []
  | [a] => [f a]
  | a :: b :: rest => a :: modifyEnd f (b :: rest)

/-- Lines 157-166: append a fresh record (a labelled graph vertex whose
index is pushed onto `final_order`, or a default-initialised slot of
`kernel_ops`) whose operation the emitter then fills in place. -/
def RunState.addRecord (partition : Nat) (counter : Int) (st : RunState) :
    RunState :=
  if partition = 0 then
    { st with
      graph := st.graph ++ [{ file_name := rootfsLabel counter, op := {} }],
      final_order := st.final_order ++ [st.graph.length] }
  else
    { st with kernel_ops := st.kernel_ops ++ [{}] }

/-- Mutate the operation record just appended (`graph->back().op` or
`kernel_ops->back()`). -/
def RunState.modifyEndOp (partition : Nat)
    (f : InstallOperation → InstallOperation) (st : RunState) : RunState :=
  if partition = 0 then
    { st with graph := modifyEnd (fun v => { v with op := f v.op }) st.graph }
  else
    { st with kernel_ops := modifyEnd f st.kernel_ops }

/-- Lines 156-181: process one completed chunk.  A record is appended and
its `type`/`data_offset` set, then `use_buf` is appended to the payload
stream; only after a successful write is the cursor advanced and the
record completed with `data_length` and its destination extent.  Returns
`false` (with the partially-filled record in place) when the write
fails. -/
def emitChunk (config : PayloadGenerationConfig) (env : Env)
    (partition : Nat) (counter : Int) (p : ChunkProcessor) (st : RunState) :
    Bool × RunState :=
  let st1 := st.addRecord partition counter
  let compress := p.ShouldCompress
  let use_buf := if compress then p.buffer_compressed else p.buffer_in
  let st2 := st1.modifyEndOp partition (fun op =>
    { op with
      type := if compress then OpType.REPLACE_BZ else OpType.REPLACE,
      data_offset := st1.data_file_size })
  if env.writeOk st2.data_file_size use_buf then
    let st3 := { st2 with
      payload := st2.payload ++ use_buf,
      data_file_size := st2.data_file_size + use_buf.length }
    let st4 := st3.modifyEndOp partition (fun op =>
      { op with
        data_length := use_buf.length,
        dst_extents := op.dst_extents ++
          [⟨p.offset / config.block_size,
            config.chunk_size / config.block_size⟩] })
    (true, st4)
  else (false, st2)

/-- Per-partition loop state: the deque of in-flight processors and the
local `off_t`/`int` counters of lines 136-137. -/
structure LoopState where
  st : RunState
  threads : List ChunkProcessor
  bytes_left : Int
  counter : Int
  offset : Nat
  last_progress : Int
deriving DecidableEq

def INT_MIN : Int := -2147483648

def LoopState.init (st : RunState) (S : Nat) : LoopState :=
  ⟨st, [], (S : Int), 0, 0, INT_MIN⟩

section Loops

variable (config : PayloadGenerationConfig) (env : Env) (partition : Nat)
  (file : Blob) (maxT S : Nat)

/-- Lines 140-148, the fill loop: while the deque is below `max_threads`
and bytes remain, construct the next worker over
`min(bytes_left, chunk_size)` bytes, push and start it, failing the run
if the spawn fails, and advance by the nominal `chunk_size`.  The `slack`
argument carries `max_threads - threads.size()`: each iteration pushes
exactly one worker, so the structural countdown coincides with the
`threads.size() < max_threads` guard. -/
def fillGo : Nat → LoopState → Bool × LoopState
  | 0, ls => (true, ls)
  | slack + 1, ls =>
    if 0 < ls.bytes_left then
      let size := (min ls.bytes_left (config.chunk_size : Int)).toNat
      if env.startOk partition ls.offset then
        let p := (ChunkProcessor.create ls.offset size).Start env.bzip file
        fillGo slack
          { ls with
            threads := ls.threads ++ [p],
            bytes_left := ls.bytes_left - (config.chunk_size : Int),
            offset := ls.offset + config.chunk_size }
      else
        (false,
          { ls with threads := ls.threads ++ [ChunkProcessor.create ls.offset size] })
    else (true, ls)

/-- Lines 183-191 plus the loop-state bookkeeping after a successful
emission of the front worker `p` with post-emission run state `st2`:
compute the progress percentage, emit a log line when it has grown by at
least 10 points or reached 100, and advance `counter` (rootfs only). -/
def drainNext (partition S : Nat) (ls1 : LoopState) (p : ChunkProcessor)
    (rest : List ChunkProcessor) (st2 : RunState) : LoopState :=
  let progress : Int := (((p.offset + p.buffer_in.length) * 100) / S : Nat)
  let next :=
    if ls1.last_progress < progress ∧
        (ls1.last_progress + 10 ≤ progress ∨ progress = 100) then
      ({ st2 with log := st2.log ++ [progress] }, progress)
    else (st2, ls1.last_progress)
  { st := next.1,
    threads := rest,
    bytes_left := ls1.bytes_left,
    counter := if partition = 0 then ls1.counter + 1 else ls1.counter,
    offset := ls1.offset,
    last_progress := next.2 }

/-- Lines 150-191: pop the front worker, wait on it, emit its operation
and bytes, and update the progress watermark.  The result's flag says
whether the outer loop continues.  The `[]` case models popping an empty
deque, which the loop structure never reaches (`max_threads ≥ 4`). -/
def drainStep (ls1 : LoopState) : Bool × LoopState :=
  match ls1.threads with
  | [] => (false, ls1)
  | p :: rest =>
    match p.Wait with
    | (false, _) => (false, { ls1 with threads := rest })
    | (true, _) =>
      match emitChunk config env partition ls1.counter p ls1.st with
      | (false, st2) => (false, { ls1 with threads := rest, st := st2 })
      | (true, st2) => (true, drainNext partition S ls1 p rest st2)

/-- Lines 138-192, the scheduler loop: while bytes remain or workers are
in flight, fill the window then drain one worker.  `none` means the fuel
ran out; `Run` passes `S + 1`, which is proved sufficient. -/
def partLoop : Nat → LoopState → Option (Bool × LoopState)
  | 0, _ => none
  | fuel + 1, ls =>
    if 0 < ls.bytes_left ∨ ls.threads ≠ [] then
      match fillGo config env partition file (maxT - ls.threads.length) ls with
      | (false, ls1) => some (false, ls1)
      | (true, ls1) =>
        match drainStep config env partition S ls1 with
        | (false, ls2) => some (false, ls2)
        | (true, ls2) => partLoop fuel ls2
    else some (true, ls)

end Loops

/-- `FullUpdateGenerator::Run`.  Returns the success flag together with
the final caller-visible state (out-parameters keep their mutations on
failure, exactly as the C++ in/out pointers do). -/
def Run (config : PayloadGenerationConfig) (env : Env) (st0 : RunState) :
    Bool × RunState :=
  if config.valid then
    if 0 < config.chunk_size then
      let maxT : Nat := (max env.nprocessors 4).toNat
      match env.file0 with
      | none => (false, st0)
      | some f0 =>
        match partLoop config env 0 f0 maxT config.rootfs_size
            (config.rootfs_size + 1) (LoopState.init st0 config.rootfs_size) with
        | none => (false, st0)
        | some (false, ls) => (false, ls.st)
        | some (true, ls) =>
          match env.file1 with
          | none => (false, ls.st)
          | some f1 =>
            match partLoop config env 1 f1 maxT config.kernel_size
                (config.kernel_size + 1) (LoopState.init ls.st config.kernel_size) with
            | none => (false, ls.st)
            | some r => (r.1, r.2.st)
    else (false, st0)
  else (false, st0)

/-! ### Basic processor lemmas and claim C6 -/

/-- A concrete successfully-started processor, used to exhibit the
non-idempotence of `Wait`. -/
def waitDemoProc : ChunkProcessor :=
  (ChunkProcessor.create 0 1).Start (fun b => some (0 :: b)) [5]

/-- C6 counterexample: for a worker whose read-and-compress succeeded, the
first `Wait` returns `true` but a second `Wait` returns `false`, so the
second call does not return the same cached result as the first. -/
theorem C6_wait_not_idempotent :
    waitDemoProc.Wait.1 = true ∧ (waitDemoProc.Wait.2).Wait.1 = false := by
  decide

/-- C6 (amended): after `Wait()` has returned, `Wait()`ing the same
processor again always returns `false` (because `thread_` was cleared by
the first call), without re-running the read-and-compress work; the first
call's result is not cached for re-return, so `Wait` is not idempotent in
its return value. -/
theorem C6_second_wait_returns_false (p : ChunkProcessor) :
    ((p.Wait.2).Wait) = (false, p.Wait.2) := by
  rcases hp : p.thread with _ | r <;> simp [ChunkProcessor.Wait, hp]

/-! ### Termination of the scheduling loop (claim C10) -/

/-- Number of chunks still to be scheduled: `ceil(bytes_left / chunk_size)`
of the non-negative part of `bytes_left`. -/
def chunksLeft (c : Nat) (b : Int) : Nat := (b.toNat + c - 1) / c

theorem chunksLeft_sub {c : Nat} {b : Int} (hc : 0 < c) (hb : 0 < b) :
    chunksLeft c (b - (c : Int)) + 1 = chunksLeft c b := by
  unfold chunksLeft
  have htn : (b - (c : Int)).toNat = b.toNat - c := by omega
  have hB : 1 ≤ b.toNat := by omega
  rw [htn]
  have hrhs : b.toNat + c - 1 = (b.toNat - 1) + c := by omega
  rw [hrhs, Nat.add_div_right _ hc]
  rcases le_or_lt b.toNat c with hle | hlt
  · have h1 : b.toNat - c = 0 := by omega
    rw [h1]
    have h2 : (0 + c - 1) / c = 0 := Nat.div_eq_of_lt (by omega)
    have h3 : (b.toNat - 1) / c = 0 := Nat.div_eq_of_lt (by omega)
    omega
  · have h1 : b.toNat - c + c - 1 = (b.toNat - 1 - c) + c := by omega
    have h2 : b.toNat - 1 = (b.toNat - 1 - c) + c := by omega
    rw [h1, Nat.add_div_right _ hc]
    conv_rhs => rw [h2]
    rw [Nat.add_div_right _ hc]

section LoopLemmas

variable {config : PayloadGenerationConfig} {env : Env} {partition : Nat}
  {file : Blob} {maxT S : Nat}

theorem fillGo_measure (hc : 0 < config.chunk_size) :
    ∀ (slack : Nat) (ls : LoopState) (ls1 : LoopState),
      fillGo config env partition file slack ls = (true, ls1) →
      chunksLeft config.chunk_size ls1.bytes_left + ls1.threads.length =
        chunksLeft config.chunk_size ls.bytes_left + ls.threads.length := by
  intro slack
  induction slack with
  | zero =>
    intro ls ls1 h
    unfold fillGo at h
    injection h with _ h2
    rw [h2]
  | succ n ih =>
    intro ls ls1 h
    unfold fillGo at h
    split at h
    · split at h
      · have hrec := ih _ _ h
        rw [hrec]
        simp only [List.length_append, List.length_cons, List.length_nil]
        have hsub := chunksLeft_sub (c := config.chunk_size) (b := ls.bytes_left)
          hc (by assumption)
        omega
      · simp at h
    · injection h with _ h2
      rw [h2]

theorem drainStep_true {ls1 ls2 : LoopState}
    (h : drainStep config env partition S ls1 = (true, ls2)) :
    ls1.threads.length = ls2.threads.length + 1 ∧
      ls2.bytes_left = ls1.bytes_left := by
  unfold drainStep at h
  split at h
  · simp at h
  · rename_i p rest hth
    split at h
    · simp at h
    · split at h
      · simp at h
      · injection h with _ h2
        rw [← h2]
        simp [drainNext, hth]

theorem partLoop_fuel_sufficient (hc : 0 < config.chunk_size) :
    ∀ (fuel : Nat) (ls : LoopState),
      chunksLeft config.chunk_size ls.bytes_left + ls.threads.length < fuel →
      partLoop config env partition file maxT S fuel ls ≠ none := by
  intro fuel
  induction fuel with
  | zero => intro ls h; omega
  | succ n ih =>
    intro ls h
    unfold partLoop
    by_cases hg : 0 < ls.bytes_left ∨ ls.threads ≠ []
    · simp only [if_pos hg]
      split
      · simp
      · rename_i ls1 hf
        split
        · simp
        · rename_i ls2 hd
          apply ih
          have hm := fillGo_measure hc (maxT - ls.threads.length) ls ls1 hf
          obtain ⟨hd21, hd22⟩ := drainStep_true hd
          rw [hd22]
          omega
    · simp only [if_neg hg]
      simp

end LoopLemmas

theorem ceil_div_le_self {S c : Nat} (hc : 0 < c) : (S + c - 1) / c ≤ S := by
  rcases Nat.eq_zero_or_pos S with hS | hS
  · subst hS
    have h0 : (0 + c - 1) / c = 0 := Nat.div_eq_of_lt (by omega)
    rw [h0]
  · rw [Nat.div_le_iff_le_mul_add_pred hc]
    have : S ≤ c * S := Nat.le_mul_of_pos_left S hc
    omega

/-- C10: with `chunk_size > 0`, the per-partition scheduling loop
terminates: the fuel `partition_size + 1` that `Run` supplies is always
sufficient (the loop never hits the out-of-fuel sentinel); more precisely
any fuel exceeding `ceil(bytes_left / chunk_size) + queue length`
suffices, because a successful fill pass preserves that measure (each
fill step decrements the remaining-bytes counter by `chunk_size` while
adding one worker), every continuing drain step removes exactly one
worker from the front of the queue without touching the remaining bytes,
and the loop exits as soon as the remaining bytes are non-positive and
the queue is empty. -/
theorem C10_scheduler_terminates (config : PayloadGenerationConfig)
    (env : Env) (partition : Nat) (file : Blob) (maxT S : Nat)
    (st : RunState) (hc : 0 < config.chunk_size) :
    partLoop config env partition file maxT S (S + 1) (LoopState.init st S) ≠ none ∧
    (∀ fuel ls,
      chunksLeft config.chunk_size ls.bytes_left + ls.threads.length < fuel →
      partLoop config env partition file maxT S fuel ls ≠ none) ∧
    (∀ slack ls ls1, fillGo config env partition file slack ls = (true, ls1) →
      chunksLeft config.chunk_size ls1.bytes_left + ls1.threads.length =
        chunksLeft config.chunk_size ls.bytes_left + ls.threads.length) ∧
    (∀ ls1 ls2, drainStep config env partition S ls1 = (true, ls2) →
      ls1.threads.length = ls2.threads.length + 1 ∧
        ls2.bytes_left = ls1.bytes_left) ∧
    (∀ fuel ls, ¬ (0 < ls.bytes_left ∨ ls.threads ≠ []) →
      partLoop config env partition file maxT S (fuel + 1) ls = some (true, ls)) := by
  refine ⟨?_, partLoop_fuel_sufficient hc,
    fun slack ls ls1 h => fillGo_measure hc slack ls ls1 h,
    fun ls1 ls2 h => drainStep_true h,
    fun fuel ls hg => by unfold partLoop; rw [if_neg hg]⟩
  apply partLoop_fuel_sufficient hc
  simp only [LoopState.init, List.length_nil, Int.toNat_natCast, chunksLeft]
  have := ceil_div_le_self (S := S) hc
  omega

/-- Shared concrete inputs for the claim witnesses: a valid config with
`chunk_size = 2`, `block_size = 1`, a 4-byte rootfs and a 2-byte kernel,
a compressor that always grows its input by one byte, and always
succeeding spawns and writes. -/
def cfgW : PayloadGenerationConfig := ⟨true, 2, 1, 4, 2⟩

def envW : Env :=
  ⟨1, fun b => some (0 :: b), some [1, 2, 3, 4], some [7, 8],
    fun _ _ => true, fun _ _ => true⟩

def st0W : RunState := ⟨0, [], [], [], [], []⟩

theorem C10_scheduler_terminates_witness :
    0 < cfgW.chunk_size ∧
      partLoop cfgW envW 0 [1, 2, 3, 4] 4 4 5 (LoopState.init st0W 4) ≠ none :=
  ⟨by decide, (C10_scheduler_terminates cfgW envW 0 [1, 2, 3, 4] 4 4 st0W (by decide)).1⟩

/-! ### Sequential characterisation of the scheduler

Workers are pure functions of the file contents and their byte range, and
the scheduler drains its FIFO strictly from the front after filling it in
ascending-offset order, so a partition run is equivalent to processing
chunks `0, 1, 2, …` sequentially.  `seqGo` is that sequential reference;
the correspondence with `partLoop` is proved below by induction over the
loop, using the queue-shape invariant "the deque holds the processors of
chunks `j, j+1, …, j+k-1`". -/

/-- Number of chunks the scheduler starts for a partition of `S` bytes:
`ceil(S / chunk_size)` (the loop decrements `bytes_left` by the nominal
`chunk_size` per started worker). -/
def nChunks (S c : Nat) : Nat := (S + c - 1) / c

/-- Requested size of chunk `i`: `min(bytes_left, chunk_size)` where
`bytes_left = S - i * chunk_size` at the time chunk `i` is constructed. -/
def chunkReq (S c i : Nat) : Nat := min (S - i * c) c

theorem lt_nChunks_iff {S c : Nat} (hc : 0 < c) (m : Nat) :
    m < nChunks S c ↔ m * c < S := by
  unfold nChunks
  rw [Nat.lt_iff_add_one_le, Nat.le_div_iff_mul_le hc, Nat.add_mul, Nat.one_mul]
  omega

section Seq

variable (config : PayloadGenerationConfig) (env : Env) (partition : Nat)
  (file : Blob) (S : Nat)

/-- The processor of chunk `i`, as `fillGo` constructs and starts it. -/
def procFor (i : Nat) : ChunkProcessor :=
  (ChunkProcessor.create (i * config.chunk_size)
    (chunkReq S config.chunk_size i)).Start env.bzip file

/-- Result of waiting on chunk `i`'s processor. -/
def waitRes (i : Nat) : Bool := ((procFor config env file S i).Wait).1

/-- The buffer the emitter writes for chunk `i`. -/
def useBufFor (i : Nat) : Blob :=
  if (procFor config env file S i).ShouldCompress then
    (procFor config env file S i).buffer_compressed
  else (procFor config env file S i).buffer_in

/-- The `counter` value at the emission of chunk `i` (`counter` is used,
and post-incremented, only for the rootfs partition). -/
def ctrOf (partition i : Nat) : Int := if partition = 0 then (i : Int) else 0

/-- The progress percentage computed after chunk `i` completes. -/
def progOf (i : Nat) : Int :=
  ((((procFor config env file S i).offset +
      (procFor config env file S i).buffer_in.length) * 100) / S : Nat)

/-- One successful sequential step: emit chunk `i` and update the progress
watermark and log. -/
def pureStep (acc : RunState × Int) (i : Nat) : RunState × Int :=
  let st2 := (emitChunk config env partition (ctrOf partition i)
    (procFor config env file S i) acc.1).2
  let progress := progOf config env file S i
  if acc.2 < progress ∧ (acc.2 + 10 ≤ progress ∨ progress = 100) then
    ({ st2 with log := st2.log ++ [progress] }, progress)
  else (st2, acc.2)

/-- Sequential reference for the scheduler loop over a list of chunk
indices: stops with `false` at the first failed wait (keeping the state)
or failed write (keeping the partially-recorded state). -/
def seqGo : List Nat → RunState × Int → Bool × (RunState × Int)
  | [], acc => (true, acc)
  | i :: rest, acc =>
    if waitRes config env file S i then
      if (emitChunk config env partition (ctrOf partition i)
          (procFor config env file S i) acc.1).1 then
        seqGo rest (pureStep config env partition file S acc i)
      else
        (false,
          ((emitChunk config env partition (ctrOf partition i)
            (procFor config env file S i) acc.1).2, acc.2))
    else (false, acc)

end Seq

/-! ### Processor field lemmas -/

theorem Start_offset (bzip : Blob → Option Blob) (file : Blob)
    (p : ChunkProcessor) : (p.Start bzip file).offset = p.offset := by
  unfold ChunkProcessor.Start
  dsimp only
  split
  · split <;> rfl
  · rfl

theorem Start_buffer_in_length (bzip : Blob → Option Blob) (file : Blob)
    (p : ChunkProcessor) :
    (p.Start bzip file).buffer_in.length = p.buffer_in.length := by
  have hrb : ((file.drop p.offset).take p.buffer_in.length).length ≤
      p.buffer_in.length := by
    simp [List.length_take]
  have hfill :
      (((file.drop p.offset).take p.buffer_in.length) ++
        p.buffer_in.drop ((file.drop p.offset).take p.buffer_in.length).length).length
        = p.buffer_in.length := by
    simp only [List.length_append, List.length_drop]
    omega
  unfold ChunkProcessor.Start
  dsimp only
  split
  · split <;> simpa using hfill
  · simpa using hfill

theorem procFor_offset (config : PayloadGenerationConfig) (env : Env)
    (file : Blob) (S i : Nat) :
    (procFor config env file S i).offset = i * config.chunk_size := by
  unfold procFor
  rw [Start_offset]
  rfl

theorem procFor_buffer_in_length (config : PayloadGenerationConfig)
    (env : Env) (file : Blob) (S i : Nat) :
    (procFor config env file S i).buffer_in.length =
      chunkReq S config.chunk_size i := by
  unfold procFor
  rw [Start_buffer_in_length]
  simp [ChunkProcessor.create]

/-- A started processor always has a joinable thread, so its `Wait`
returns the thread's result. -/
theorem Start_thread_isSome (bzip : Blob → Option Blob) (file : Blob)
    (p : ChunkProcessor) : (p.Start bzip file).thread.isSome := by
  unfold ChunkProcessor.Start
  dsimp only
  split
  · split <;> rfl
  · rfl

/-! ### The scheduler loop refines the sequential model -/

section Master

variable {config : PayloadGenerationConfig} {env : Env} {partition : Nat}
  {file : Blob} {maxT S : Nat}

theorem fillGo_start_all_ok
    (hS : ∀ o, env.startOk partition o = true) :
    ∀ (slack : Nat) (ls : LoopState),
      (fillGo config env partition file slack ls).1 = true := by
  intro slack
  induction slack with
  | zero => intro ls; rfl
  | succ m ih =>
    intro ls
    unfold fillGo
    dsimp only
    split
    · rw [hS ls.offset]
      simp only [if_pos]
      exact ih _
    · rfl

theorem fillGo_spec (hc : 0 < config.chunk_size) :
    ∀ (slack j k : Nat) (ls ls1 : LoopState),
      ls.threads = (List.range' j k).map (procFor config env file S) →
      ls.offset = (j + k) * config.chunk_size →
      ls.bytes_left = (S : Int) - ((j + k) * config.chunk_size : Nat) →
      j + k ≤ nChunks S config.chunk_size →
      fillGo config env partition file slack ls = (true, ls1) →
      ∃ k2, k ≤ k2 ∧ j + k2 ≤ nChunks S config.chunk_size ∧
        ls1.threads = (List.range' j k2).map (procFor config env file S) ∧
        ls1.offset = (j + k2) * config.chunk_size ∧
        ls1.bytes_left = (S : Int) - ((j + k2) * config.chunk_size : Nat) ∧
        ls1.st = ls.st ∧ ls1.counter = ls.counter ∧
        ls1.last_progress = ls.last_progress ∧
        (k < k2 ∨ slack = 0 ∨ nChunks S config.chunk_size ≤ j + k) := by
  intro slack
  induction slack with
  | zero =>
    intro j k ls ls1 hth hoff hby hjk h
    unfold fillGo at h
    injection h with _ h2
    subst h2
    exact ⟨k, le_refl _, hjk, hth, hoff, hby, rfl, rfl, rfl, Or.inr (Or.inl rfl)⟩
  | succ m ih =>
    intro j k ls ls1 hth hoff hby hjk h
    unfold fillGo at h
    dsimp only at h
    split at h
    · rename_i hbpos
      split at h
      · rename_i hstart
        have hjkn : j + k < nChunks S config.chunk_size := by
          rw [lt_nChunks_iff hc]
          rw [hby] at hbpos
          omega
        have hsize : (min ls.bytes_left ((config.chunk_size : Nat) : Int)).toNat
            = chunkReq S config.chunk_size (j + k) := by
          rw [hby]
          unfold chunkReq
          omega
        have hproc : (ChunkProcessor.create ls.offset
              ((min ls.bytes_left ((config.chunk_size : Nat) : Int)).toNat)).Start
              env.bzip file
            = procFor config env file S (j + k) := by
          rw [hoff, hsize]
          rfl
        have hrange : List.range' j (k + 1) = List.range' j k ++ [j + k] := by
          simp [List.range'_concat]
        obtain ⟨k2, hk2a, hk2b, hk2th, hk2off, hk2by, hk2st, hk2ctr, hk2lp, hk2ex⟩ :=
          ih j (k + 1) _ ls1
            (by
              dsimp only
              rw [hth, hproc, hrange, List.map_append]
              rfl)
            (by
              dsimp only
              rw [hoff]
              ring)
            (by
              dsimp only
              rw [hby]
              push_cast
              ring)
            (by omega)
            h
        exact ⟨k2, by omega, hk2b, hk2th, hk2off, hk2by, hk2st, hk2ctr, hk2lp,
          Or.inl (by omega)⟩
      · simp at h
    · rename_i hbneg
      injection h with _ h2
      subst h2
      refine ⟨k, le_refl _, hjk, hth, hoff, hby, rfl, rfl, rfl, Or.inr (Or.inr ?_)⟩
      by_contra hlt
      rw [Nat.not_le] at hlt
      rw [lt_nChunks_iff hc] at hlt
      rw [hby] at hbneg
      omega

theorem drainStep_wait_false {ls1 : LoopState} {p : ChunkProcessor}
    {rest : List ChunkProcessor} (hth : ls1.threads = p :: rest)
    (hw : p.Wait.1 = false) :
    drainStep config env partition S ls1 = (false, { ls1 with threads := rest }) := by
  rcases hpw : p.Wait with ⟨b, q⟩
  rw [hpw] at hw
  subst hw
  simp [drainStep, hth, hpw]

theorem drainStep_emit_false {ls1 : LoopState} {p : ChunkProcessor}
    {rest : List ChunkProcessor} {st2 : RunState} (hth : ls1.threads = p :: rest)
    (hw : p.Wait.1 = true)
    (he : emitChunk config env partition ls1.counter p ls1.st = (false, st2)) :
    drainStep config env partition S ls1 =
      (false, { ls1 with threads := rest, st := st2 }) := by
  rcases hpw : p.Wait with ⟨b, q⟩
  rw [hpw] at hw
  subst hw
  simp [drainStep, hth, hpw, he]

theorem drainStep_emit_true {ls1 : LoopState} {p : ChunkProcessor}
    {rest : List ChunkProcessor} {st2 : RunState} (hth : ls1.threads = p :: rest)
    (hw : p.Wait.1 = true)
    (he : emitChunk config env partition ls1.counter p ls1.st = (true, st2)) :
    drainStep config env partition S ls1 =
      (true, drainNext partition S ls1 p rest st2) := by
  rcases hpw : p.Wait with ⟨b, q⟩
  rw [hpw] at hw
  subst hw
  simp [drainStep, hth, hpw, he]

theorem pureStep_eq_drainNext {ls1 : LoopState} {st2 : RunState} {j : Nat}
    {rest : List ChunkProcessor}
    (he : emitChunk config env partition (ctrOf partition j)
      (procFor config env file S j) ls1.st = (true, st2)) :
    pureStep config env partition file S (ls1.st, ls1.last_progress) j =
      ((drainNext partition S ls1 (procFor config env file S j) rest st2).st,
       (drainNext partition S ls1 (procFor config env file S j) rest st2).last_progress) := by
  unfold pureStep drainNext progOf
  rw [he]

theorem drainStep_nil {ls1 : LoopState} (hth : ls1.threads = []) :
    drainStep config env partition S ls1 = (false, ls1) := by
  simp [drainStep, hth]

theorem range'_cons (s n : Nat) :
    List.range' s (n + 1) = s :: List.range' (s + 1) n := by
  simp [List.range'_succ]

theorem ctrOf_succ (partition j : Nat) :
    (if partition = 0 then ctrOf partition j + 1 else ctrOf partition j) =
      ctrOf partition (j + 1) := by
  unfold ctrOf
  split <;> push_cast <;> ring

/-- Master correspondence: under the queue-shape invariant, the scheduler
loop's result (flag, final run state, final progress watermark) equals the
sequential model's on the remaining chunks.  The side condition asks
either that the loop succeeded or that worker spawns always succeed (the
sequential model does not represent a spawn failure happening while the
window is being refilled ahead of the cursor). -/
theorem partLoop_eq_seqGo (hc : 0 < config.chunk_size) (hmaxT : 1 ≤ maxT) :
    ∀ (fuel j k : Nat) (ls : LoopState) (r : Bool × LoopState),
      ls.threads = (List.range' j k).map (procFor config env file S) →
      ls.offset = (j + k) * config.chunk_size →
      ls.bytes_left = (S : Int) - ((j + k) * config.chunk_size : Nat) →
      ls.counter = ctrOf partition j →
      j + k ≤ nChunks S config.chunk_size →
      partLoop config env partition file maxT S fuel ls = some r →
      (r.1 = true ∨ ∀ o, env.startOk partition o = true) →
      seqGo config env partition file S
          (List.range' j (nChunks S config.chunk_size - j))
          (ls.st, ls.last_progress) =
        (r.1, (r.2.st, r.2.last_progress)) := by
  intro fuel
  induction fuel with
  | zero =>
    intro j k ls r _ _ _ _ _ h _
    simp [partLoop] at h
  | succ m ih =>
    intro j k ls r hth hoff hby hctr hjk h hdisj
    unfold partLoop at h
    split at h
    · rename_i hg
      split at h
      · -- fillGo returned false: a spawn failed
        rename_i ls1 hfill
        injection h with h'
        subst h'
        rcases hdisj with hrt | hS
        · simp at hrt
        · have hok := @fillGo_start_all_ok config env partition file
            hS (maxT - ls.threads.length) ls
          rw [hfill] at hok
          simp at hok
      · rename_i ls1 hfill
        obtain ⟨k2, hk2a, hk2b, hth1, hoff1, hby1, hst1, hctr1, hlp1, hex⟩ :=
          fillGo_spec hc _ j k ls ls1 hth hoff hby hjk hfill
        have hctr1' : ls1.counter = ctrOf partition j := by rw [hctr1, hctr]
        rcases Nat.eq_zero_or_pos k2 with hk20 | hk2pos
        · -- empty queue after fill: impossible under the guard
          subst hk20
          exfalso
          have hk0 : k = 0 := by omega
          subst hk0
          have hthnil : ls.threads = [] := by simpa using hth
          have hbpos : 0 < ls.bytes_left := by
            rcases hg with hb | hne
            · exact hb
            · exact absurd hthnil hne
          have hjn : j < nChunks S config.chunk_size := by
            rw [lt_nChunks_iff hc]
            rw [hby] at hbpos
            simp only [Nat.add_zero] at hbpos
            omega
          rcases hex with hlt | hsl | hge
          · omega
          · rw [hthnil] at hsl
            simp at hsl
            omega
          · omega
        · -- the queue head is chunk j's processor
          have hk2s : k2 = (k2 - 1) + 1 := by omega
          rw [hk2s, range'_cons, List.map_cons] at hth1
          have hjn : j < nChunks S config.chunk_size := by omega
          have hnj : nChunks S config.chunk_size - j =
              (nChunks S config.chunk_size - (j + 1)) + 1 := by omega
          rcases hwb : waitRes config env file S j with hwf | hwt
          · -- wait failed
            have hdw := @drainStep_wait_false config env partition S _ _ _ hth1 hwb
            split at h
            · rename_i ls2 hdrain
              rw [hdw] at hdrain
              injection hdrain with _ hdrain2
              injection h with h'
              subst h'
              subst hdrain2
              rw [hnj, range'_cons]
              simp only [seqGo, hwb]
              simp [hst1, hlp1]
            · rename_i ls2 hdrain
              rw [hdw] at hdrain
              simp at hdrain
          · -- wait succeeded: emit chunk j
            rcases hemit : emitChunk config env partition (ctrOf partition j)
                (procFor config env file S j) ls1.st with ⟨ok, st2⟩
            have hemitc : emitChunk config env partition ls1.counter
                (procFor config env file S j) ls1.st = (ok, st2) := by
              rw [hctr1']
              exact hemit
            have hemitLS : emitChunk config env partition (ctrOf partition j)
                (procFor config env file S j) ls.st = (ok, st2) := by
              rw [← hst1]
              exact hemit
            cases ok with
            | false =>
              have hde := drainStep_emit_false (S := S) hth1 hwb hemitc
              split at h
              · rename_i ls2 hdrain
                rw [hde] at hdrain
                injection hdrain with _ hdrain2
                injection h with h'
                subst h'
                subst hdrain2
                rw [hnj, range'_cons]
                simp only [seqGo, hwb, if_true]
                rw [hst1] at hemit
                simp only [hemit]
                simp [hst1, hlp1]
              · rename_i ls2 hdrain
                rw [hde] at hdrain
                simp at hdrain
            | true =>
              have hde := drainStep_emit_true (S := S) hth1 hwb hemitc
              split at h
              · rename_i ls2 hdrain
                rw [hde] at hdrain
                simp at hdrain
              · rename_i ls2 hdrain
                rw [hde] at hdrain
                injection hdrain with _ hdrain2
                subst hdrain2
                -- recurse via the IH on the drained state
                have hps := @pureStep_eq_drainNext config env partition file S _ _ _
                  ((List.range' (j + 1) (k2 - 1)).map
                    (procFor config env file S)) hemit
                have hrec := ih (j + 1) (k2 - 1)
                  (drainNext partition S ls1 (procFor config env file S j)
                    ((List.range' (j + 1) (k2 - 1)).map (procFor config env file S)) st2)
                  r
                  (by simp [drainNext])
                  (by
                    simp only [drainNext]
                    have hidx : j + 1 + (k2 - 1) = j + k2 := by omega
                    rw [hidx, hoff1])
                  (by
                    simp only [drainNext]
                    have hidx : j + 1 + (k2 - 1) = j + k2 := by omega
                    rw [hidx, hby1])
                  (by
                    simp only [drainNext]
                    rw [hctr1']
                    exact ctrOf_succ partition j)
                  (by omega)
                  h
                  hdisj
                rw [hnj, range'_cons]
                simp only [seqGo, hwb, if_true]
                rw [hemitLS]
                simp only []
                have hacc : pureStep config env partition file S (ls.st, ls.last_progress) j =
                    ((drainNext partition S ls1 (procFor config env file S j)
                        ((List.range' (j + 1) (k2 - 1)).map (procFor config env file S)) st2).st,
                     (drainNext partition S ls1 (procFor config env file S j)
                        ((List.range' (j + 1) (k2 - 1)).map (procFor config env file S)) st2).last_progress) := by
                  rw [← hst1, ← hlp1]
                  exact hps
                rw [hacc]
                exact hrec
    · rename_i hg
      push_neg at hg
      obtain ⟨hb, hthne⟩ := hg
      have hthnil : ls.threads = [] := by
        by_contra hne
        exact hne (hthne)
      have hk0 : k = 0 := by
        rw [hthnil] at hth
        have := hth.symm
        rw [List.map_eq_nil_iff] at this
        simpa [List.range'_eq_nil] using this
      subst hk0
      have hnj : nChunks S config.chunk_size ≤ j := by
        by_contra hlt
        rw [Nat.not_le, lt_nChunks_iff hc] at hlt
        rw [hby] at hb
        simp at hb
        omega
      have hz : nChunks S config.chunk_size - j = 0 := by omega
      rw [hz]
      injection h with h'
      subst h'
      rfl

end Master

/-! ### Closed forms for the emitted records -/

theorem modifyEnd_concat {α : Type} (f : α → α) (a : α) :
    ∀ l : List α, modifyEnd f (l ++ [a]) = l ++ [f a]
  | [] => rfl
  | [x] => rfl
  | x :: y :: ys => by
    show x :: modifyEnd f ((y :: ys) ++ [a]) = x :: ((y :: ys) ++ [f a])
    rw [modifyEnd_concat f a (y :: ys)]

section ClosedForm

variable (config : PayloadGenerationConfig) (env : Env) (file : Blob) (S : Nat)

/-- Length of the bytes written for chunk `i`. -/
def lenOf (i : Nat) : Nat := (useBufFor config env file S i).length

/-- The operation type chosen for chunk `i`. -/
def typeOf (i : Nat) : OpType :=
  if (procFor config env file S i).ShouldCompress then OpType.REPLACE_BZ
  else OpType.REPLACE

/-- The fully-populated operation emitted for chunk `i` when the payload
cursor stood at `dfs`. -/
def opFull (i dfs : Nat) : InstallOperation :=
  { type := typeOf config env file S i,
    data_offset := dfs,
    data_length := lenOf config env file S i,
    dst_extents := [⟨(i * config.chunk_size) / config.block_size,
      config.chunk_size / config.block_size⟩] }

/-- The partially-populated record left behind when the payload write for
chunk `i` fails: `type` and `data_offset` are set, `data_length` and the
destination extent are not. -/
def partialOp (i dfs : Nat) : InstallOperation :=
  { type := typeOf config env file S i,
    data_offset := dfs,
    data_length := 0,
    dst_extents := [] }

/-- Total bytes written for chunks `j, …, j+m-1`. -/
def totLen : Nat → Nat → Nat
  | _, 0 => 0
  | j, m + 1 => lenOf config env file S j + totLen (j + 1) m

/-- Concatenation of the buffers written for chunks `j, …, j+m-1`. -/
def bufCat : Nat → Nat → Blob
  | _, 0 => []
  | j, m + 1 => useBufFor config env file S j ++ bufCat (j + 1) m

/-- Graph vertices appended for rootfs chunks `j, …, j+m-1` starting from
payload cursor `dfs`. -/
def vertsFor : Nat → Nat → Nat → List Vertex
  | _, 0, _ => []
  | j, m + 1, dfs =>
    ⟨rootfsLabel (j : Int), opFull config env file S j dfs⟩ ::
      vertsFor (j + 1) m (dfs + lenOf config env file S j)

/-- Kernel operations appended for kernel chunks `j, …, j+m-1` starting
from payload cursor `dfs`. -/
def opsFor : Nat → Nat → Nat → List InstallOperation
  | _, 0, _ => []
  | j, m + 1, dfs =>
    opFull config env file S j dfs ::
      opsFor (j + 1) m (dfs + lenOf config env file S j)

/-- The run state after the emitter successfully processes chunk `i` of
partition `partition` from state `st`. -/
def emitSucc (partition i : Nat) (st : RunState) : RunState :=
  if partition = 0 then
    { st with
      graph := st.graph ++
        [⟨rootfsLabel (i : Int), opFull config env file S i st.data_file_size⟩],
      final_order := st.final_order ++ [st.graph.length],
      payload := st.payload ++ useBufFor config env file S i,
      data_file_size := st.data_file_size + lenOf config env file S i }
  else
    { st with
      kernel_ops := st.kernel_ops ++ [opFull config env file S i st.data_file_size],
      payload := st.payload ++ useBufFor config env file S i,
      data_file_size := st.data_file_size + lenOf config env file S i }

/-- The run state after the emitter's payload write for chunk `i` fails
from state `st`: the record is present but partial, the cursor and the
payload stream are untouched. -/
def emitPartial (partition i : Nat) (st : RunState) : RunState :=
  if partition = 0 then
    { st with
      graph := st.graph ++
        [⟨rootfsLabel (i : Int), partialOp config env file S i st.data_file_size⟩],
      final_order := st.final_order ++ [st.graph.length] }
  else
    { st with
      kernel_ops := st.kernel_ops ++ [partialOp config env file S i st.data_file_size] }

theorem emitChunk_eq (partition i : Nat) (st : RunState) :
    emitChunk config env partition (ctrOf partition i)
        (procFor config env file S i) st =
      if env.writeOk st.data_file_size (useBufFor config env file S i) then
        (true, emitSucc config env file S partition i st)
      else (false, emitPartial config env file S partition i st) := by
  by_cases hp : partition = 0
  · subst hp
    simp only [emitChunk, RunState.addRecord, RunState.modifyEndOp, emitSucc,
      emitPartial, ctrOf, useBufFor, if_pos rfl, reduceIte, modifyEnd_concat,
      typeOf, opFull, partialOp, lenOf]
    rw [procFor_offset]
    split <;> rfl
  · simp only [emitChunk, RunState.addRecord, RunState.modifyEndOp, emitSucc,
      emitPartial, ctrOf, useBufFor, if_neg hp, modifyEnd_concat,
      typeOf, opFull, partialOp, lenOf]
    rw [procFor_offset]
    split <;> rfl

end ClosedForm

section ClosedForm2

variable (config : PayloadGenerationConfig) (env : Env) (file : Blob) (S : Nat)

/-- The progress log lines the loop emits while processing the given
chunk indices, starting from watermark `lp` (the source's condition:
`last_progress_update < progress && (last_progress_update + 10 <= progress
|| progress == 100)`). -/
def codeLog : List Nat → Int → List Int
  | [], _ => []
  | i :: rest, lp =>
    if lp < progOf config env file S i ∧
        (lp + 10 ≤ progOf config env file S i ∨ progOf config env file S i = 100) then
      progOf config env file S i :: codeLog rest (progOf config env file S i)
    else codeLog rest lp

/-- The watermark after processing the given chunk indices. -/
def codeLast : List Nat → Int → Int
  | [], lp => lp
  | i :: rest, lp =>
    if lp < progOf config env file S i ∧
        (lp + 10 ≤ progOf config env file S i ∨ progOf config env file S i = 100) then
      codeLast rest (progOf config env file S i)
    else codeLast rest lp

/-- One successful emission step, including the progress update. -/
def stepP (partition j : Nat) (st : RunState) (lp : Int) : RunState × Int :=
  let st2 := emitSucc config env file S partition j st
  if lp < progOf config env file S j ∧
      (lp + 10 ≤ progOf config env file S j ∨ progOf config env file S j = 100) then
    ({ st2 with log := st2.log ++ [progOf config env file S j] },
      progOf config env file S j)
  else (st2, lp)

/-- Run state after the whole partition-0 slice `j, …, j+m-1` succeeds. -/
def part0State (j m : Nat) (st : RunState) (lp : Int) : RunState :=
  ⟨st.data_file_size + totLen config env file S j m,
   st.payload ++ bufCat config env file S j m,
   st.graph ++ vertsFor config env file S j m st.data_file_size,
   st.kernel_ops,
   st.final_order ++ List.range' st.graph.length m,
   st.log ++ codeLog config env file S (List.range' j m) lp⟩

/-- Run state after the whole partition-1 slice `j, …, j+m-1` succeeds. -/
def part1State (j m : Nat) (st : RunState) (lp : Int) : RunState :=
  ⟨st.data_file_size + totLen config env file S j m,
   st.payload ++ bufCat config env file S j m,
   st.graph,
   st.kernel_ops ++ opsFor config env file S j m st.data_file_size,
   st.final_order,
   st.log ++ codeLog config env file S (List.range' j m) lp⟩

theorem pureStep_eq_stepP (partition j : Nat) (st : RunState) (lp : Int)
    (hwr : env.writeOk st.data_file_size (useBufFor config env file S j) = true) :
    pureStep config env partition file S (st, lp) j =
      stepP config env file S partition j st lp := by
  unfold pureStep stepP progOf
  rw [emitChunk_eq, if_pos hwr]

theorem stepP_fst_dfs (partition j : Nat) (st : RunState) (lp : Int) :
    (stepP config env file S partition j st lp).1.data_file_size =
      st.data_file_size + lenOf config env file S j := by
  unfold stepP emitSucc
  by_cases hp : partition = 0
  · simp only [if_pos hp]
    split <;> rfl
  · simp only [if_neg hp]
    split <;> rfl

theorem stepP_fst_graph_zero (j : Nat) (st : RunState) (lp : Int) :
    (stepP config env file S 0 j st lp).1.graph =
      st.graph ++ [⟨rootfsLabel (j : Int), opFull config env file S j st.data_file_size⟩] := by
  unfold stepP emitSucc
  simp only [if_pos rfl]
  split <;> rfl

theorem part0State_zero (j : Nat) (st : RunState) (lp : Int) :
    part0State config env file S j 0 st lp = st := by
  unfold part0State
  show (⟨st.data_file_size + 0, st.payload ++ [], st.graph ++ [],
    st.kernel_ops, st.final_order ++ [], st.log ++ []⟩ : RunState) = st
  simp

theorem part1State_zero (j : Nat) (st : RunState) (lp : Int) :
    part1State config env file S j 0 st lp = st := by
  unfold part1State
  show (⟨st.data_file_size + 0, st.payload ++ [], st.graph,
    st.kernel_ops ++ [], st.final_order, st.log ++ []⟩ : RunState) = st
  simp

theorem codeLast_step (j m : Nat) (st : RunState) (lp : Int) (partition : Nat) :
    codeLast config env file S (List.range' (j + 1) m)
        (stepP config env file S partition j st lp).2 =
      codeLast config env file S (List.range' j (m + 1)) lp := by
  rw [range'_cons]
  unfold stepP
  by_cases h : lp < progOf config env file S j ∧
      (lp + 10 ≤ progOf config env file S j ∨ progOf config env file S j = 100)
  · rw [if_pos h]
    show codeLast config env file S (List.range' (j + 1) m)
        (progOf config env file S j) = _
    simp only [codeLast, if_pos h]
  · rw [if_neg h]
    show codeLast config env file S (List.range' (j + 1) m) lp = _
    simp only [codeLast, if_neg h]

theorem part0State_step (j m : Nat) (st : RunState) (lp : Int) :
    part0State config env file S (j + 1) m (stepP config env file S 0 j st lp).1
      (stepP config env file S 0 j st lp).2 =
    part0State config env file S j (m + 1) st lp := by
  have hvf : vertsFor config env file S j (m + 1) st.data_file_size =
      ⟨rootfsLabel (j : Int), opFull config env file S j st.data_file_size⟩ ::
        vertsFor config env file S (j + 1) m
          (st.data_file_size + lenOf config env file S j) := rfl
  have htl : totLen config env file S j (m + 1) =
      lenOf config env file S j + totLen config env file S (j + 1) m := rfl
  have hbc : bufCat config env file S j (m + 1) =
      useBufFor config env file S j ++ bufCat config env file S (j + 1) m := rfl
  unfold part0State stepP emitSucc
  simp only [if_pos rfl]
  split
  · rename_i hcond
    simp only [hvf, htl, hbc]
    rw [range'_cons (st.graph.length), range'_cons j]
    simp only [codeLog, if_pos hcond]
    simp [List.append_assoc, List.length_append, Nat.add_assoc]
  · rename_i hcond
    simp only [hvf, htl, hbc]
    rw [range'_cons (st.graph.length), range'_cons j]
    simp only [codeLog, if_neg hcond]
    simp [List.append_assoc, List.length_append, Nat.add_assoc]

theorem part1State_step (j m : Nat) (st : RunState) (lp : Int) :
    part1State config env file S (j + 1) m (stepP config env file S 1 j st lp).1
      (stepP config env file S 1 j st lp).2 =
    part1State config env file S j (m + 1) st lp := by
  have hof : opsFor config env file S j (m + 1) st.data_file_size =
      opFull config env file S j st.data_file_size ::
        opsFor config env file S (j + 1) m
          (st.data_file_size + lenOf config env file S j) := rfl
  have htl : totLen config env file S j (m + 1) =
      lenOf config env file S j + totLen config env file S (j + 1) m := rfl
  have hbc : bufCat config env file S j (m + 1) =
      useBufFor config env file S j ++ bufCat config env file S (j + 1) m := rfl
  unfold part1State stepP emitSucc
  simp only [if_neg (by omega : ¬ (1 : Nat) = 0)]
  split
  · rename_i hcond
    simp only [hof, htl, hbc]
    rw [range'_cons j]
    simp only [codeLog, if_pos hcond]
    simp [List.append_assoc, Nat.add_assoc]
  · rename_i hcond
    simp only [hof, htl, hbc]
    rw [range'_cons j]
    simp only [codeLog, if_neg hcond]
    simp [List.append_assoc, Nat.add_assoc]

theorem seqGo_cons_wait_false (partition j : Nat) (rest : List Nat)
    (st : RunState) (lp : Int)
    (hw : waitRes config env file S j = false) :
    seqGo config env partition file S (j :: rest) (st, lp) = (false, (st, lp)) := by
  simp [seqGo, hw]

theorem seqGo_cons_write_false (partition j : Nat) (rest : List Nat)
    (st : RunState) (lp : Int)
    (hw : waitRes config env file S j = true)
    (hwr : env.writeOk st.data_file_size (useBufFor config env file S j) = false) :
    seqGo config env partition file S (j :: rest) (st, lp) =
      (false, (emitPartial config env file S partition j st, lp)) := by
  simp only [seqGo, hw, if_true]
  rw [emitChunk_eq]
  simp [hwr]

theorem seqGo_cons_true (partition j : Nat) (rest : List Nat)
    (st : RunState) (lp : Int)
    (hw : waitRes config env file S j = true)
    (hwr : env.writeOk st.data_file_size (useBufFor config env file S j) = true) :
    seqGo config env partition file S (j :: rest) (st, lp) =
      seqGo config env partition file S rest
        (stepP config env file S partition j st lp) := by
  simp only [seqGo, hw, if_true]
  rw [emitChunk_eq, if_pos (by simp [hwr])]
  rw [pureStep_eq_stepP config env file S partition j st lp hwr]

theorem seqGo_part0_inv :
    ∀ (m j : Nat) (st : RunState) (lp : Int) (out : RunState × Int),
      seqGo config env 0 file S (List.range' j m) (st, lp) = (true, out) →
      out = (part0State config env file S j m st lp,
             codeLast config env file S (List.range' j m) lp) ∧
      (∀ t, t < m → waitRes config env file S (j + t) = true) ∧
      (∀ t, t < m →
        env.writeOk (st.data_file_size + totLen config env file S j t)
          (useBufFor config env file S (j + t)) = true) := by
  intro m
  induction m with
  | zero =>
    intro j st lp out h
    simp only [seqGo] at h
    injection h with _ h2
    subst h2
    refine ⟨?_, fun t ht => absurd ht (by omega), fun t ht => absurd ht (by omega)⟩
    rw [part0State_zero]
    rfl
  | succ m ih =>
    intro j st lp out h
    rw [range'_cons] at h
    rcases hw : waitRes config env file S j with _ | _
    · rw [seqGo_cons_wait_false config env file S 0 j _ st lp hw] at h
      exact absurd h (by simp)
    · rcases hwr : env.writeOk st.data_file_size (useBufFor config env file S j)
        with _ | _
      · rw [seqGo_cons_write_false config env file S 0 j _ st lp hw hwr] at h
        exact absurd h (by simp)
      · rw [seqGo_cons_true config env file S 0 j _ st lp hw hwr] at h
        obtain ⟨hout, hWs, hWr⟩ := ih (j + 1)
          (stepP config env file S 0 j st lp).1
          (stepP config env file S 0 j st lp).2 out h
        refine ⟨?_, ?_, ?_⟩
        · rw [hout, part0State_step, codeLast_step]
        · intro t ht
          cases t with
          | zero => simpa using hw
          | succ u =>
            have hu := hWs u (by omega)
            have hidx : j + 1 + u = j + (u + 1) := by omega
            rwa [hidx] at hu
        · intro t ht
          cases t with
          | zero => simpa using hwr
          | succ u =>
            have hu := hWr u (by omega)
            rw [stepP_fst_dfs] at hu
            have hidx : j + 1 + u = j + (u + 1) := by omega
            rw [hidx] at hu
            have htl : totLen config env file S j (u + 1) =
                lenOf config env file S j + totLen config env file S (j + 1) u := rfl
            rw [htl, ← Nat.add_assoc]
            exact hu

theorem seqGo_part1_inv :
    ∀ (m j : Nat) (st : RunState) (lp : Int) (out : RunState × Int),
      seqGo config env 1 file S (List.range' j m) (st, lp) = (true, out) →
      out = (part1State config env file S j m st lp,
             codeLast config env file S (List.range' j m) lp) ∧
      (∀ t, t < m → waitRes config env file S (j + t) = true) ∧
      (∀ t, t < m →
        env.writeOk (st.data_file_size + totLen config env file S j t)
          (useBufFor config env file S (j + t)) = true) := by
  intro m
  induction m with
  | zero =>
    intro j st lp out h
    simp only [seqGo] at h
    injection h with _ h2
    subst h2
    refine ⟨?_, fun t ht => absurd ht (by omega), fun t ht => absurd ht (by omega)⟩
    rw [part1State_zero]
    rfl
  | succ m ih =>
    intro j st lp out h
    rw [range'_cons] at h
    rcases hw : waitRes config env file S j with _ | _
    · rw [seqGo_cons_wait_false config env file S 1 j _ st lp hw] at h
      exact absurd h (by simp)
    · rcases hwr : env.writeOk st.data_file_size (useBufFor config env file S j)
        with _ | _
      · rw [seqGo_cons_write_false config env file S 1 j _ st lp hw hwr] at h
        exact absurd h (by simp)
      · rw [seqGo_cons_true config env file S 1 j _ st lp hw hwr] at h
        obtain ⟨hout, hWs, hWr⟩ := ih (j + 1)
          (stepP config env file S 1 j st lp).1
          (stepP config env file S 1 j st lp).2 out h
        refine ⟨?_, ?_, ?_⟩
        · rw [hout, part1State_step, codeLast_step]
        · intro t ht
          cases t with
          | zero => simpa using hw
          | succ u =>
            have hu := hWs u (by omega)
            have hidx : j + 1 + u = j + (u + 1) := by omega
            rwa [hidx] at hu
        · intro t ht
          cases t with
          | zero => simpa using hwr
          | succ u =>
            have hu := hWr u (by omega)
            rw [stepP_fst_dfs] at hu
            have hidx : j + 1 + u = j + (u + 1) := by omega
            rw [hidx] at hu
            have htl : totLen config env file S j (u + 1) =
                lenOf config env file S j + totLen config env file S (j + 1) u := rfl
            rw [htl, ← Nat.add_assoc]
            exact hu

theorem seqGo_part0_of :
    ∀ (m j : Nat) (st : RunState) (lp : Int),
      (∀ t, t < m → waitRes config env file S (j + t) = true) →
      (∀ t, t < m →
        env.writeOk (st.data_file_size + totLen config env file S j t)
          (useBufFor config env file S (j + t)) = true) →
      seqGo config env 0 file S (List.range' j m) (st, lp) =
        (true, (part0State config env file S j m st lp,
                codeLast config env file S (List.range' j m) lp)) := by
  intro m
  induction m with
  | zero =>
    intro j st lp _ _
    rw [part0State_zero]
    rfl
  | succ m ih =>
    intro j st lp hWs hWr
    have hw : waitRes config env file S j = true := by simpa using hWs 0 (by omega)
    have hwr : env.writeOk st.data_file_size (useBufFor config env file S j) = true := by
      simpa using hWr 0 (by omega)
    rw [range'_cons, seqGo_cons_true config env file S 0 j _ st lp hw hwr]
    rw [ih (j + 1) (stepP config env file S 0 j st lp).1
      (stepP config env file S 0 j st lp).2
      (by
        intro t ht
        have := hWs (t + 1) (by omega)
        have hidx : j + (t + 1) = j + 1 + t := by omega
        rwa [hidx] at this)
      (by
        intro t ht
        have hu := hWr (t + 1) (by omega)
        rw [stepP_fst_dfs]
        have hidx : j + (t + 1) = j + 1 + t := by omega
        rw [hidx] at hu
        have htl : totLen config env file S j (t + 1) =
            lenOf config env file S j + totLen config env file S (j + 1) t := rfl
        rw [htl, ← Nat.add_assoc] at hu
        exact hu)]
    rw [part0State_step, codeLast_step, range'_cons]

theorem seqGo_part1_of :
    ∀ (m j : Nat) (st : RunState) (lp : Int),
      (∀ t, t < m → waitRes config env file S (j + t) = true) →
      (∀ t, t < m →
        env.writeOk (st.data_file_size + totLen config env file S j t)
          (useBufFor config env file S (j + t)) = true) →
      seqGo config env 1 file S (List.range' j m) (st, lp) =
        (true, (part1State config env file S j m st lp,
                codeLast config env file S (List.range' j m) lp)) := by
  intro m
  induction m with
  | zero =>
    intro j st lp _ _
    rw [part1State_zero]
    rfl
  | succ m ih =>
    intro j st lp hWs hWr
    have hw : waitRes config env file S j = true := by simpa using hWs 0 (by omega)
    have hwr : env.writeOk st.data_file_size (useBufFor config env file S j) = true := by
      simpa using hWr 0 (by omega)
    rw [range'_cons, seqGo_cons_true config env file S 1 j _ st lp hw hwr]
    rw [ih (j + 1) (stepP config env file S 1 j st lp).1
      (stepP config env file S 1 j st lp).2
      (by
        intro t ht
        have := hWs (t + 1) (by omega)
        have hidx : j + (t + 1) = j + 1 + t := by omega
        rwa [hidx] at this)
      (by
        intro t ht
        have hu := hWr (t + 1) (by omega)
        rw [stepP_fst_dfs]
        have hidx : j + (t + 1) = j + 1 + t := by omega
        rw [hidx] at hu
        have htl : totLen config env file S j (t + 1) =
            lenOf config env file S j + totLen config env file S (j + 1) t := rfl
        rw [htl, ← Nat.add_assoc] at hu
        exact hu)]
    rw [part1State_step, codeLast_step, range'_cons]

end ClosedForm2

/-! ### Run-level correspondence -/

theorem maxT_pos (env : Env) : 1 ≤ (max env.nprocessors 4).toNat := by
  have h4 : (4 : Int) ≤ max env.nprocessors 4 := le_max_right _ _
  omega

theorem init_inv (st : RunState) (S : Nat) (config : PayloadGenerationConfig)
    (env : Env) (partition : Nat) (file : Blob) :
    (LoopState.init st S).threads =
        (List.range' 0 0).map (procFor config env file S) ∧
      (LoopState.init st S).offset = (0 + 0) * config.chunk_size ∧
      (LoopState.init st S).bytes_left =
        (S : Int) - (((0 + 0) * config.chunk_size : Nat) : Int) ∧
      (LoopState.init st S).counter = ctrOf partition 0 := by
  refine ⟨rfl, by simp [LoopState.init], by simp [LoopState.init], ?_⟩
  unfold ctrOf LoopState.init
  split <;> rfl

theorem Run_true_elim {config : PayloadGenerationConfig} {env : Env}
    {st0 stF : RunState} (h : Run config env st0 = (true, stF)) :
    config.valid = true ∧ 0 < config.chunk_size ∧
    ∃ f0 f1 st1 lp1 lp2,
      env.file0 = some f0 ∧ env.file1 = some f1 ∧
      seqGo config env 0 f0 config.rootfs_size
        (List.range' 0 (nChunks config.rootfs_size config.chunk_size))
        (st0, INT_MIN) = (true, (st1, lp1)) ∧
      seqGo config env 1 f1 config.kernel_size
        (List.range' 0 (nChunks config.kernel_size config.chunk_size))
        (st1, INT_MIN) = (true, (stF, lp2)) := by
  unfold Run at h
  dsimp only at h
  split at h
  · rename_i hv
    split at h
    · rename_i hcp
      split at h
      · simp at h
      · rename_i x0 f0 hf0
        split at h
        · simp at h
        · simp at h
        · rename_i xp0 ls hpl0
          split at h
          · simp at h
          · rename_i x1 f1 hf1
            split at h
            · simp at h
            · rename_i xp1 r hpl1
              rcases r with ⟨rb, rls⟩
              injection h with h1 h2
              subst h1
              subst h2
              obtain ⟨hi1, hi2, hi3, hi4⟩ :=
                init_inv st0 config.rootfs_size config env 0 f0
              have hm0 := @partLoop_eq_seqGo config env 0 f0 _ config.rootfs_size
                hcp (maxT_pos env) (config.rootfs_size + 1) 0 0
                (LoopState.init st0 config.rootfs_size) (true, ls)
                hi1 hi2 hi3 hi4 (by omega) hpl0 (Or.inl rfl)
              obtain ⟨hj1, hj2, hj3, hj4⟩ :=
                init_inv ls.st config.kernel_size config env 1 f1
              have hm1 := @partLoop_eq_seqGo config env 1 f1 _ config.kernel_size
                hcp (maxT_pos env) (config.kernel_size + 1) 0 0
                (LoopState.init ls.st config.kernel_size) (true, rls)
                hj1 hj2 hj3 hj4 (by omega) hpl1 (Or.inl rfl)
              simp only [Nat.sub_zero] at hm0 hm1
              exact ⟨hv, hcp, f0, f1, ls.st, ls.last_progress, rls.last_progress,
                hf0, hf1, hm0, hm1⟩
    · simp at h
  · simp at h

theorem Run_part0_fail {config : PayloadGenerationConfig} {env : Env}
    {st0 : RunState} {f0 : Blob} {stP : RunState} {lp : Int}
    (hv : config.valid = true) (hcp : 0 < config.chunk_size)
    (hf0 : env.file0 = some f0)
    (hS : ∀ o, env.startOk 0 o = true)
    (hseq : seqGo config env 0 f0 config.rootfs_size
      (List.range' 0 (nChunks config.rootfs_size config.chunk_size))
      (st0, INT_MIN) = (false, (stP, lp))) :
    Run config env st0 = (false, stP) := by
  obtain ⟨r, hr⟩ : ∃ r, partLoop config env 0 f0 ((max env.nprocessors 4).toNat)
      config.rootfs_size (config.rootfs_size + 1)
      (LoopState.init st0 config.rootfs_size) = some r := by
    have hne := @partLoop_fuel_sufficient config env 0 f0
      ((max env.nprocessors 4).toNat)
      config.rootfs_size hcp (config.rootfs_size + 1)
      (LoopState.init st0 config.rootfs_size)
      (by
        simp only [LoopState.init, List.length_nil, chunksLeft, Int.toNat_natCast]
        have := ceil_div_le_self (S := config.rootfs_size) hcp
        omega)
    exact Option.ne_none_iff_exists'.mp hne
  obtain ⟨hi1, hi2, hi3, hi4⟩ := init_inv st0 config.rootfs_size config env 0 f0
  have hm0 := @partLoop_eq_seqGo config env 0 f0 _ config.rootfs_size
    hcp (maxT_pos env) (config.rootfs_size + 1) 0 0
    (LoopState.init st0 config.rootfs_size) r
    hi1 hi2 hi3 hi4 (by omega) hr (Or.inr hS)
  simp only [Nat.sub_zero, LoopState.init] at hm0
  rw [hseq] at hm0
  rcases r with ⟨rb, rls⟩
  injection hm0 with hm1 hm2
  injection hm2 with hm2a hm2b
  cases rb with
  | true => exact absurd hm1 (by simp)
  | false =>
    simp only [Run, hv, if_pos hcp, hf0, hr, if_true]
    simp [hm2a]

/-! ### Helper lemmas about the abstract emission lists -/

/-- `contiguousBetween a ops b`: the operations' payload ranges tile the
byte interval from `a` to `b`: each `data_offset` equals the running
cursor and the cursor advances by `data_length`. -/
def contiguousBetween : Nat → List InstallOperation → Nat → Prop
  | a, [], b => a = b
  | a, op :: rest, b =>
    op.data_offset = a ∧ contiguousBetween (a + op.data_length) rest b

theorem contiguousBetween_append {a b c2 : Nat} :
    ∀ {l1 l2 : List InstallOperation},
      contiguousBetween a l1 b → contiguousBetween b l2 c2 →
      contiguousBetween a (l1 ++ l2) c2 := by
  intro l1
  induction l1 generalizing a with
  | nil =>
    intro l2 h1 h2
    unfold contiguousBetween at h1
    subst h1
    exact h2
  | cons op rest ih =>
    intro l2 h1 h2
    obtain ⟨ho, hrest⟩ := h1
    exact ⟨ho, ih hrest h2⟩

theorem contiguousBetween_get {a b : Nat} :
    ∀ {l : List InstallOperation}, contiguousBetween a l b →
      ∀ (i : Nat) (h1 : i < l.length) (h2 : i + 1 < l.length),
        (l.get ⟨i, h1⟩).data_offset + (l.get ⟨i, h1⟩).data_length =
          (l.get ⟨i + 1, h2⟩).data_offset := by
  intro l
  induction l generalizing a with
  | nil => intro _ i h1 _; exact absurd h1 (by simp)
  | cons op rest ih =>
    intro h i h1 h2
    obtain ⟨ho, hrest⟩ := h
    cases i with
    | zero =>
      cases rest with
      | nil => exact absurd h2 (by simp)
      | cons op2 rest2 =>
        obtain ⟨ho2, _⟩ := hrest
        simp only [List.get]
        rw [ho, ho2]
    | succ i' =>
      exact ih hrest i' (by simpa using h1) (by simpa using h2)

section EmissionLemmas

variable (config : PayloadGenerationConfig) (env : Env) (file : Blob) (S : Nat)

theorem opsFor_contiguous :
    ∀ (m j dfs : Nat),
      contiguousBetween dfs (opsFor config env file S j m dfs)
        (dfs + totLen config env file S j m) := by
  intro m
  induction m with
  | zero => intro j dfs; exact (Nat.add_zero dfs).symm
  | succ m ih =>
    intro j dfs
    refine ⟨rfl, ?_⟩
    have := ih (j + 1) (dfs + lenOf config env file S j)
    have htl : totLen config env file S j (m + 1) =
        lenOf config env file S j + totLen config env file S (j + 1) m := rfl
    rw [htl, ← Nat.add_assoc]
    exact this

theorem vertsFor_length :
    ∀ (m j dfs : Nat), (vertsFor config env file S j m dfs).length = m := by
  intro m
  induction m with
  | zero => intro j dfs; rfl
  | succ m ih => intro j dfs; simp [vertsFor, ih]

theorem opsFor_length :
    ∀ (m j dfs : Nat), (opsFor config env file S j m dfs).length = m := by
  intro m
  induction m with
  | zero => intro j dfs; rfl
  | succ m ih => intro j dfs; simp [opsFor, ih]

theorem map_op_vertsFor :
    ∀ (m j dfs : Nat),
      (vertsFor config env file S j m dfs).map Vertex.op =
        opsFor config env file S j m dfs := by
  intro m
  induction m with
  | zero => intro j dfs; rfl
  | succ m ih => intro j dfs; simp [vertsFor, opsFor, ih]

theorem vertsFor_get :
    ∀ (m j dfs i : Nat) (h : i < (vertsFor config env file S j m dfs).length),
      (vertsFor config env file S j m dfs).get ⟨i, h⟩ =
        ⟨rootfsLabel ((j + i : Nat) : Int),
         opFull config env file S (j + i)
           (dfs + totLen config env file S j i)⟩ := by
  intro m
  induction m with
  | zero => intro j dfs i h; exact absurd h (by simp [vertsFor])
  | succ m ih =>
    intro j dfs i h
    cases i with
    | zero => simp [vertsFor, totLen]
    | succ i' =>
      have hlen : i' < (vertsFor config env file S (j + 1) m
          (dfs + lenOf config env file S j)).length := by
        rw [vertsFor_length]
        rw [vertsFor_length] at h
        omega
      have := ih (j + 1) (dfs + lenOf config env file S j) i' hlen
      show (vertsFor config env file S (j + 1) m
          (dfs + lenOf config env file S j)).get ⟨i', hlen⟩ = _
      rw [this]
      have h1 : j + 1 + i' = j + (i' + 1) := by omega
      have h2 : dfs + lenOf config env file S j +
          totLen config env file S (j + 1) i' =
          dfs + totLen config env file S j (i' + 1) := by
        have : totLen config env file S j (i' + 1) =
            lenOf config env file S j + totLen config env file S (j + 1) i' := rfl
        rw [this, ← Nat.add_assoc]
      rw [h1, h2]

theorem opsFor_get :
    ∀ (m j dfs i : Nat) (h : i < (opsFor config env file S j m dfs).length),
      (opsFor config env file S j m dfs).get ⟨i, h⟩ =
        opFull config env file S (j + i) (dfs + totLen config env file S j i) := by
  intro m
  induction m with
  | zero => intro j dfs i h; exact absurd h (by simp [opsFor])
  | succ m ih =>
    intro j dfs i h
    cases i with
    | zero => simp [opsFor, totLen]
    | succ i' =>
      have hlen : i' < (opsFor config env file S (j + 1) m
          (dfs + lenOf config env file S j)).length := by
        rw [opsFor_length]
        rw [opsFor_length] at h
        omega
      have := ih (j + 1) (dfs + lenOf config env file S j) i' hlen
      show (opsFor config env file S (j + 1) m
          (dfs + lenOf config env file S j)).get ⟨i', hlen⟩ = _
      rw [this]
      have h1 : j + 1 + i' = j + (i' + 1) := by omega
      have h2 : dfs + lenOf config env file S j +
          totLen config env file S (j + 1) i' =
          dfs + totLen config env file S j (i' + 1) := by
        have : totLen config env file S j (i' + 1) =
            lenOf config env file S j + totLen config env file S (j + 1) i' := rfl
        rw [this, ← Nat.add_assoc]
      rw [h1, h2]

end EmissionLemmas

theorem nChunks_dvd {S c : Nat} (hc : 0 < c) (hd : c ∣ S) :
    nChunks S c = S / c := by
  obtain ⟨q, hq⟩ := hd
  subst hq
  unfold nChunks
  rw [Nat.add_sub_assoc hc, Nat.mul_add_div hc, Nat.div_eq_of_lt (by omega),
    Nat.mul_div_cancel_left _ hc]
  omega

/-- Consolidated success analysis: a successful `Run` produced exactly the
closed-form final state, and every chunk's wait succeeded. -/
theorem Run_true_closed {config : PayloadGenerationConfig} {env : Env}
    {st0 stF : RunState} (h : Run config env st0 = (true, stF)) :
    config.valid = true ∧ 0 < config.chunk_size ∧
    ∃ f0 f1,
      env.file0 = some f0 ∧ env.file1 = some f1 ∧
      stF = part1State config env f1 config.kernel_size 0
        (nChunks config.kernel_size config.chunk_size)
        (part0State config env f0 config.rootfs_size 0
          (nChunks config.rootfs_size config.chunk_size) st0 INT_MIN)
        INT_MIN ∧
      (∀ t, t < nChunks config.rootfs_size config.chunk_size →
        waitRes config env f0 config.rootfs_size t = true) ∧
      (∀ t, t < nChunks config.kernel_size config.chunk_size →
        waitRes config env f1 config.kernel_size t = true) := by
  obtain ⟨hv, hcp, f0, f1, st1, lp1, lp2, hf0, hf1, hs0, hs1⟩ := Run_true_elim h
  obtain ⟨hout0, hW0, _⟩ :=
    seqGo_part0_inv config env f0 config.rootfs_size
      (nChunks config.rootfs_size config.chunk_size) 0 st0 INT_MIN _ hs0
  obtain ⟨hout1, hW1, _⟩ :=
    seqGo_part1_inv config env f1 config.kernel_size
      (nChunks config.kernel_size config.chunk_size) 0 st1 INT_MIN _ hs1
  injection hout0 with hout0a hout0b
  injection hout1 with hout1a hout1b
  refine ⟨hv, hcp, f0, f1, hf0, hf1, ?_, ?_, ?_⟩
  · rw [hout1a, hout0a]
  · intro t ht
    simpa using hW0 t ht
  · intro t ht
    simpa using hW1 t ht


/-! ### Claims C1-C5: invariants of a successful run -/

theorem Start_wait_true_bzip (bzip : Blob → Option Blob) (file : Blob)
    (p : ChunkProcessor) (h : ((p.Start bzip file).Wait).1 = true) :
    bzip (p.Start bzip file).buffer_in =
      some (p.Start bzip file).buffer_compressed := by
  unfold ChunkProcessor.Start at h ⊢
  dsimp only at h ⊢
  split at h
  · rename_i hcond
    rw [if_pos hcond]
    split at h
    · rename_i comp hcomp
      rw [hcomp]
    · rename_i hcomp
      simp [ChunkProcessor.Wait] at h
  · rename_i hcond
    simp [ChunkProcessor.Wait] at h

theorem procFor_wait_bzip {config : PayloadGenerationConfig} {env : Env}
    {file : Blob} {S i : Nat}
    (h : waitRes config env file S i = true) :
    env.bzip (procFor config env file S i).buffer_in =
      some (procFor config env file S i).buffer_compressed :=
  Start_wait_true_bzip env.bzip file _ h

/-- C1: in a successful run, the emitted operations' `data_offset` values
are contiguous and strictly increasing in emission order across both
partitions, which share one cursor: the whole operation sequence tiles
the payload byte range from the initial `data_file_size` to the final
one (each `data_offset` equals the cursor before that chunk's bytes are
written, and the cursor advances by the actual `data_length`, i.e. the
length of the chosen buffer), and adjacent operations satisfy
`op[i].data_offset + op[i].data_length = op[i+1].data_offset`. -/
theorem C1_data_offsets_contiguous (config : PayloadGenerationConfig)
    (env : Env) (st0 stF : RunState)
    (hrun : Run config env st0 = (true, stF))
    (hg : st0.graph = []) (hk : st0.kernel_ops = []) :
    contiguousBetween st0.data_file_size (opsOf stF) stF.data_file_size ∧
    (∀ (i : Nat) (h1 : i < (opsOf stF).length) (h2 : i + 1 < (opsOf stF).length),
      ((opsOf stF).get ⟨i, h1⟩).data_offset +
          ((opsOf stF).get ⟨i, h1⟩).data_length =
        ((opsOf stF).get ⟨i + 1, h2⟩).data_offset) := by
  obtain ⟨hv, hcp, f0, f1, hf0, hf1, hstF, hW0, hW1⟩ := Run_true_closed hrun
  have hcontig : contiguousBetween st0.data_file_size (opsOf stF)
      stF.data_file_size := by
    rw [hstF]
    unfold opsOf part1State part0State
    dsimp only
    rw [hg, hk]
    simp only [List.nil_append, map_op_vertsFor]
    exact contiguousBetween_append
      (opsFor_contiguous config env f0 config.rootfs_size _ 0 st0.data_file_size)
      (opsFor_contiguous config env f1 config.kernel_size _ 0 _)
  exact ⟨hcontig, fun i h1 h2 => contiguousBetween_get hcontig i h1 h2⟩

/-- C2: with `chunk_size > 0` and partition sizes that are exact positive
multiples of `chunk_size`, a successful run emits exactly
`partition_size / chunk_size` operations per partition, one per chunk in
ascending source-offset order (the `i`-th emitted record is chunk `i`'s,
whose source offset is `i * chunk_size`), and each worker is constructed
with requested size `min(remaining_bytes, chunk_size)`. -/
theorem C2_ops_per_partition (config : PayloadGenerationConfig) (env : Env)
    (st0 stF : RunState)
    (hrun : Run config env st0 = (true, stF))
    (hg : st0.graph = []) (hk : st0.kernel_ops = [])
    (hd0 : config.chunk_size ∣ config.rootfs_size)
    (hd1 : config.chunk_size ∣ config.kernel_size)
    (hp0 : 0 < config.rootfs_size) (hp1 : 0 < config.kernel_size) :
    stF.graph.length = config.rootfs_size / config.chunk_size ∧
    stF.kernel_ops.length = config.kernel_size / config.chunk_size ∧
    ∀ f0 f1, env.file0 = some f0 → env.file1 = some f1 →
      (∀ i : Nat,
        (procFor config env f0 config.rootfs_size i).offset =
            i * config.chunk_size ∧
        (procFor config env f0 config.rootfs_size i).buffer_in.length =
          min (config.rootfs_size - i * config.chunk_size) config.chunk_size ∧
        (procFor config env f1 config.kernel_size i).offset =
            i * config.chunk_size ∧
        (procFor config env f1 config.kernel_size i).buffer_in.length =
          min (config.kernel_size - i * config.chunk_size) config.chunk_size) ∧
      (∀ (i : Nat) (hi : i < stF.graph.length),
        (stF.graph.get ⟨i, hi⟩).op =
          opFull config env f0 config.rootfs_size i
            (st0.data_file_size +
              totLen config env f0 config.rootfs_size 0 i)) ∧
      (∀ (i : Nat) (hi : i < stF.kernel_ops.length),
        stF.kernel_ops.get ⟨i, hi⟩ =
          opFull config env f1 config.kernel_size i
            (st0.data_file_size +
              totLen config env f0 config.rootfs_size 0
                (nChunks config.rootfs_size config.chunk_size) +
              totLen config env f1 config.kernel_size 0 i)) := by
  obtain ⟨hv, hcp, f0, f1, hf0, hf1, hstF, hW0, hW1⟩ := Run_true_closed hrun
  have hglen : stF.graph.length = nChunks config.rootfs_size config.chunk_size := by
    rw [hstF]
    unfold part1State part0State
    dsimp only
    rw [hg]
    simp [vertsFor_length]
  have hklen : stF.kernel_ops.length = nChunks config.kernel_size config.chunk_size := by
    rw [hstF]
    unfold part1State part0State
    dsimp only
    rw [hk]
    simp [opsFor_length]
  refine ⟨by rw [hglen, nChunks_dvd hcp hd0],
          by rw [hklen, nChunks_dvd hcp hd1], ?_⟩
  intro g0 g1 hg0 hg1
  rw [hf0] at hg0
  rw [hf1] at hg1
  injection hg0 with hg0
  injection hg1 with hg1
  subst hg0
  subst hg1
  refine ⟨?_, ?_, ?_⟩
  · intro i
    exact ⟨procFor_offset _ _ _ _ _,
      by rw [procFor_buffer_in_length]; rfl,
      procFor_offset _ _ _ _ _,
      by rw [procFor_buffer_in_length]; rfl⟩
  · intro i hi
    have hgr : stF.graph =
        vertsFor config env f0 config.rootfs_size 0
          (nChunks config.rootfs_size config.chunk_size) st0.data_file_size := by
      rw [hstF]
      unfold part1State part0State
      dsimp only
      rw [hg]
      simp
    have hi2 : i < (vertsFor config env f0 config.rootfs_size 0
        (nChunks config.rootfs_size config.chunk_size) st0.data_file_size).length := by
      rw [← hgr]
      exact hi
    have := vertsFor_get config env f0 config.rootfs_size _ 0 st0.data_file_size i hi2
    calc (stF.graph.get ⟨i, hi⟩).op
        = ((vertsFor config env f0 config.rootfs_size 0
            (nChunks config.rootfs_size config.chunk_size)
            st0.data_file_size).get ⟨i, hi2⟩).op := by
          congr 1
          exact List.get_of_eq hgr _
      _ = _ := by rw [this]; simp
  · intro i hi
    have hker : stF.kernel_ops =
        opsFor config env f1 config.kernel_size 0
          (nChunks config.kernel_size config.chunk_size)
          (st0.data_file_size +
            totLen config env f0 config.rootfs_size 0
              (nChunks config.rootfs_size config.chunk_size)) := by
      rw [hstF]
      unfold part1State part0State
      dsimp only
      rw [hk]
      simp
    have hi2 : i < (opsFor config env f1 config.kernel_size 0
        (nChunks config.kernel_size config.chunk_size)
        (st0.data_file_size +
          totLen config env f0 config.rootfs_size 0
            (nChunks config.rootfs_size config.chunk_size))).length := by
      rw [← hker]
      exact hi
    have := opsFor_get config env f1 config.kernel_size _ 0 _ i hi2
    calc stF.kernel_ops.get ⟨i, hi⟩
        = (opsFor config env f1 config.kernel_size 0
            (nChunks config.kernel_size config.chunk_size)
            (st0.data_file_size +
              totLen config env f0 config.rootfs_size 0
                (nChunks config.rootfs_size config.chunk_size))).get ⟨i, hi2⟩ :=
          List.get_of_eq hker _
      _ = _ := by rw [this]; simp

/-- Field-level consequences of a successful run (graph, kernel ops,
payload, cursor, wait results), with the partition files named. -/
theorem Run_true_fields {config : PayloadGenerationConfig} {env : Env}
    {st0 stF : RunState} {f0 f1 : Blob}
    (hrun : Run config env st0 = (true, stF))
    (hg : st0.graph = []) (hk : st0.kernel_ops = [])
    (hf0 : env.file0 = some f0) (hf1 : env.file1 = some f1) :
    stF.graph = vertsFor config env f0 config.rootfs_size 0
        (nChunks config.rootfs_size config.chunk_size) st0.data_file_size ∧
    stF.kernel_ops = opsFor config env f1 config.kernel_size 0
        (nChunks config.kernel_size config.chunk_size)
        (st0.data_file_size +
          totLen config env f0 config.rootfs_size 0
            (nChunks config.rootfs_size config.chunk_size)) ∧
    stF.payload = st0.payload ++
        bufCat config env f0 config.rootfs_size 0
          (nChunks config.rootfs_size config.chunk_size) ++
        bufCat config env f1 config.kernel_size 0
          (nChunks config.kernel_size config.chunk_size) ∧
    stF.data_file_size = st0.data_file_size +
        totLen config env f0 config.rootfs_size 0
          (nChunks config.rootfs_size config.chunk_size) +
        totLen config env f1 config.kernel_size 0
          (nChunks config.kernel_size config.chunk_size) ∧
    (∀ t, t < nChunks config.rootfs_size config.chunk_size →
      waitRes config env f0 config.rootfs_size t = true) ∧
    (∀ t, t < nChunks config.kernel_size config.chunk_size →
      waitRes config env f1 config.kernel_size t = true) := by
  obtain ⟨hv, hcp, g0, g1, hg0, hg1, hstF, hW0, hW1⟩ := Run_true_closed hrun
  rw [hf0] at hg0
  rw [hf1] at hg1
  injection hg0 with hg0
  injection hg1 with hg1
  subst hg0
  subst hg1
  rw [hstF]
  unfold part1State part0State
  dsimp only
  rw [hg, hk]
  exact ⟨by simp, by simp, by simp, rfl, hW0, hW1⟩

/-- C3: in a successful run, every emitted operation's single destination
extent has `start_block = chunk_offset / block_size` (the `i`-th
operation of a partition covers the chunk at source offset
`i * chunk_size`) and `num_blocks = chunk_size / block_size`, computed
from the nominal `chunk_size` for every chunk — including a final chunk
whose requested size is smaller than `chunk_size`. -/
theorem C3_destination_extents (config : PayloadGenerationConfig) (env : Env)
    (st0 stF : RunState)
    (hrun : Run config env st0 = (true, stF))
    (hg : st0.graph = []) (hk : st0.kernel_ops = []) :
    (∀ (i : Nat) (hi : i < stF.graph.length),
      (stF.graph.get ⟨i, hi⟩).op.dst_extents =
        [⟨(i * config.chunk_size) / config.block_size,
          config.chunk_size / config.block_size⟩]) ∧
    (∀ (i : Nat) (hi : i < stF.kernel_ops.length),
      (stF.kernel_ops.get ⟨i, hi⟩).dst_extents =
        [⟨(i * config.chunk_size) / config.block_size,
          config.chunk_size / config.block_size⟩]) := by
  obtain ⟨hv, hcp, f0, f1, hf0, hf1, hstF, hW0, hW1⟩ := Run_true_closed hrun
  obtain ⟨hgr, hker, hpay, hdfs, _, _⟩ :=
    Run_true_fields hrun hg hk hf0 hf1
  constructor
  · intro i hi
    have hi2 : i < (vertsFor config env f0 config.rootfs_size 0
        (nChunks config.rootfs_size config.chunk_size)
        st0.data_file_size).length := by rw [← hgr]; exact hi
    have hget := vertsFor_get config env f0 config.rootfs_size _ 0
      st0.data_file_size i hi2
    have : stF.graph.get ⟨i, hi⟩ =
        (vertsFor config env f0 config.rootfs_size 0
          (nChunks config.rootfs_size config.chunk_size)
          st0.data_file_size).get ⟨i, hi2⟩ := List.get_of_eq hgr _
    rw [this, hget]
    simp [opFull]
  · intro i hi
    have hi2 : i < (opsFor config env f1 config.kernel_size 0
        (nChunks config.kernel_size config.chunk_size)
        (st0.data_file_size +
          totLen config env f0 config.rootfs_size 0
            (nChunks config.rootfs_size config.chunk_size))).length := by
      rw [← hker]; exact hi
    have hget := opsFor_get config env f1 config.kernel_size _ 0 _ i hi2
    have : stF.kernel_ops.get ⟨i, hi⟩ =
        (opsFor config env f1 config.kernel_size 0
          (nChunks config.kernel_size config.chunk_size)
          (st0.data_file_size +
            totLen config env f0 config.rootfs_size 0
              (nChunks config.rootfs_size config.chunk_size))).get ⟨i, hi2⟩ :=
      List.get_of_eq hker _
    rw [this, hget]
    simp [opFull]

set_option maxHeartbeats 1000000 in
/-- C4: in a successful run, every emitted operation's `type` is the
compressed kind (`REPLACE_BZ`) iff that chunk's compressed buffer is
strictly smaller than its raw buffer, its `data_length` is the length of
the chosen buffer, and the payload stream consists of exactly the chosen
buffers' bytes in emission order; in particular, if the compression
primitive never produces a strictly smaller output, every operation is
`REPLACE` with `data_length` equal to the raw chunk size. -/
theorem C4_compression_choice (config : PayloadGenerationConfig) (env : Env)
    (st0 stF : RunState)
    (hrun : Run config env st0 = (true, stF))
    (hg : st0.graph = []) (hk : st0.kernel_ops = []) :
    ∀ f0 f1, env.file0 = some f0 → env.file1 = some f1 →
      (∀ (i : Nat) (hi : i < stF.graph.length),
        ((stF.graph.get ⟨i, hi⟩).op.type = OpType.REPLACE_BZ ↔
          (procFor config env f0 config.rootfs_size i).buffer_compressed.length <
            (procFor config env f0 config.rootfs_size i).buffer_in.length) ∧
        (stF.graph.get ⟨i, hi⟩).op.data_length =
          (useBufFor config env f0 config.rootfs_size i).length) ∧
      (∀ (i : Nat) (hi : i < stF.kernel_ops.length),
        ((stF.kernel_ops.get ⟨i, hi⟩).type = OpType.REPLACE_BZ ↔
          (procFor config env f1 config.kernel_size i).buffer_compressed.length <
            (procFor config env f1 config.kernel_size i).buffer_in.length) ∧
        (stF.kernel_ops.get ⟨i, hi⟩).data_length =
          (useBufFor config env f1 config.kernel_size i).length) ∧
      (stF.payload = st0.payload ++
        bufCat config env f0 config.rootfs_size 0
          (nChunks config.rootfs_size config.chunk_size) ++
        bufCat config env f1 config.kernel_size 0
          (nChunks config.kernel_size config.chunk_size)) ∧
      ((∀ b out, env.bzip b = some out → ¬ out.length < b.length) →
        (∀ (i : Nat) (hi : i < stF.graph.length),
          (stF.graph.get ⟨i, hi⟩).op.type = OpType.REPLACE ∧
          (stF.graph.get ⟨i, hi⟩).op.data_length =
            (procFor config env f0 config.rootfs_size i).buffer_in.length) ∧
        (∀ (i : Nat) (hi : i < stF.kernel_ops.length),
          (stF.kernel_ops.get ⟨i, hi⟩).type = OpType.REPLACE ∧
          (stF.kernel_ops.get ⟨i, hi⟩).data_length =
            (procFor config env f1 config.kernel_size i).buffer_in.length)) := by
  intro f0 f1 hf0 hf1
  obtain ⟨hgr, hker, hpay, hdfs, hW0, hW1⟩ := Run_true_fields hrun hg hk hf0 hf1
  have hglen : stF.graph.length = nChunks config.rootfs_size config.chunk_size := by
    rw [hgr, vertsFor_length]
  have hklen : stF.kernel_ops.length =
      nChunks config.kernel_size config.chunk_size := by
    rw [hker, opsFor_length]
  have hgetG : ∀ (i : Nat) (hi : i < stF.graph.length),
      (stF.graph.get ⟨i, hi⟩).op =
        opFull config env f0 config.rootfs_size i
          (st0.data_file_size + totLen config env f0 config.rootfs_size 0 i) := by
    intro i hi
    have hi2 : i < (vertsFor config env f0 config.rootfs_size 0
        (nChunks config.rootfs_size config.chunk_size)
        st0.data_file_size).length := by rw [← hgr]; exact hi
    have hget := vertsFor_get config env f0 config.rootfs_size _ 0
      st0.data_file_size i hi2
    have heq : stF.graph.get ⟨i, hi⟩ =
        (vertsFor config env f0 config.rootfs_size 0
          (nChunks config.rootfs_size config.chunk_size)
          st0.data_file_size).get ⟨i, hi2⟩ := List.get_of_eq hgr _
    rw [heq, hget]
    simp
  have hgetK : ∀ (i : Nat) (hi : i < stF.kernel_ops.length),
      stF.kernel_ops.get ⟨i, hi⟩ =
        opFull config env f1 config.kernel_size i
          (st0.data_file_size +
            totLen config env f0 config.rootfs_size 0
              (nChunks config.rootfs_size config.chunk_size) +
            totLen config env f1 config.kernel_size 0 i) := by
    intro i hi
    have hi2 : i < (opsFor config env f1 config.kernel_size 0
        (nChunks config.kernel_size config.chunk_size)
        (st0.data_file_size +
          totLen config env f0 config.rootfs_size 0
            (nChunks config.rootfs_size config.chunk_size))).length := by
      rw [← hker]; exact hi
    have hget := opsFor_get config env f1 config.kernel_size _ 0 _ i hi2
    have heq : stF.kernel_ops.get ⟨i, hi⟩ =
        (opsFor config env f1 config.kernel_size 0
          (nChunks config.kernel_size config.chunk_size)
          (st0.data_file_size +
            totLen config env f0 config.rootfs_size 0
              (nChunks config.rootfs_size config.chunk_size))).get ⟨i, hi2⟩ :=
      List.get_of_eq hker _
    rw [heq, hget]
    simp
  have htype : ∀ (file : Blob) (S i : Nat),
      (typeOf config env file S i = OpType.REPLACE_BZ ↔
        (procFor config env file S i).buffer_compressed.length <
          (procFor config env file S i).buffer_in.length) := by
    intro file S i
    unfold typeOf ChunkProcessor.ShouldCompress
    by_cases hlt : (procFor config env file S i).buffer_compressed.length <
        (procFor config env file S i).buffer_in.length
    · simp [hlt]
    · simp [hlt]
  refine ⟨?_, ?_, hpay, ?_⟩
  · intro i hi
    rw [hgetG i hi]
    exact ⟨htype f0 config.rootfs_size i, rfl⟩
  · intro i hi
    rw [hgetK i hi]
    exact ⟨htype f1 config.kernel_size i, rfl⟩
  · intro hno
    have hnosc : ∀ (file : Blob) (S i : Nat),
        waitRes config env file S i = true →
        (procFor config env file S i).ShouldCompress = false := by
      intro file S i hwt
      have hb := procFor_wait_bzip hwt
      have := hno _ _ hb
      unfold ChunkProcessor.ShouldCompress
      simpa using this
    have husebuf : ∀ (file : Blob) (S i : Nat),
        waitRes config env file S i = true →
        useBufFor config env file S i = (procFor config env file S i).buffer_in := by
      intro file S i hwt
      unfold useBufFor
      rw [hnosc file S i hwt]
      simp
    constructor
    · intro i hi
      have hwt := hW0 i (by rw [← hglen]; exact hi)
      rw [hgetG i hi]
      constructor
      · show typeOf config env f0 config.rootfs_size i = OpType.REPLACE
        unfold typeOf
        rw [hnosc f0 config.rootfs_size i hwt]
        simp
      · show lenOf config env f0 config.rootfs_size i = _
        unfold lenOf
        rw [husebuf f0 config.rootfs_size i hwt]
    · intro i hi
      have hwt := hW1 i (by rw [← hklen]; exact hi)
      rw [hgetK i hi]
      constructor
      · show typeOf config env f1 config.kernel_size i = OpType.REPLACE
        unfold typeOf
        rw [hnosc f1 config.kernel_size i hwt]
        simp
      · show lenOf config env f1 config.kernel_size i = _
        unfold lenOf
        rw [husebuf f1 config.kernel_size i hwt]

/-- C5: in a successful run starting from empty out-parameters, every
rootfs chunk appends one vertex to the graph, labelled
`<rootfs-operation-N>` with `N` a counter that starts at 0 and increments
once per rootfs chunk, the vertex contains that chunk's InstallOperation,
its index is appended to `FinalOrder`, and `FinalOrder` is exactly
`[0, 1, 2, ...]` in insertion order. -/
theorem C5_graph_and_final_order (config : PayloadGenerationConfig)
    (env : Env) (st0 stF : RunState)
    (hrun : Run config env st0 = (true, stF))
    (hg : st0.graph = []) (hk : st0.kernel_ops = [])
    (hfo : st0.final_order = []) :
    stF.final_order = List.range stF.graph.length ∧
    ∀ f0, env.file0 = some f0 →
      stF.graph.length = nChunks config.rootfs_size config.chunk_size ∧
      ∀ (i : Nat) (hi : i < stF.graph.length),
        (stF.graph.get ⟨i, hi⟩).file_name = rootfsLabel (i : Int) ∧
        (stF.graph.get ⟨i, hi⟩).op =
          opFull config env f0 config.rootfs_size i
            (st0.data_file_size + totLen config env f0 config.rootfs_size 0 i) := by
  obtain ⟨hv, hcp, f0, f1, hf0, hf1, hstF, hW0, hW1⟩ := Run_true_closed hrun
  obtain ⟨hgr, hker, hpay, hdfs, _, _⟩ := Run_true_fields hrun hg hk hf0 hf1
  have hglen : stF.graph.length = nChunks config.rootfs_size config.chunk_size := by
    rw [hgr, vertsFor_length]
  have hfinal : stF.final_order =
      List.range (nChunks config.rootfs_size config.chunk_size) := by
    rw [hstF]
    unfold part1State part0State
    dsimp only
    rw [hfo, hg]
    simp [List.range_eq_range']
  have hgets : ∀ (g0 : Blob), env.file0 = some g0 →
      ∀ (i : Nat) (hi : i < stF.graph.length),
        (stF.graph.get ⟨i, hi⟩).file_name = rootfsLabel (i : Int) ∧
        (stF.graph.get ⟨i, hi⟩).op =
          opFull config env g0 config.rootfs_size i
            (st0.data_file_size + totLen config env g0 config.rootfs_size 0 i) := by
    intro g0 hg0
    rw [hf0] at hg0
    injection hg0 with hg0
    subst hg0
    intro i hi
    have hi2 : i < (vertsFor config env f0 config.rootfs_size 0
        (nChunks config.rootfs_size config.chunk_size)
        st0.data_file_size).length := by rw [← hgr]; exact hi
    have hget := vertsFor_get config env f0 config.rootfs_size _ 0
      st0.data_file_size i hi2
    have heq : stF.graph.get ⟨i, hi⟩ =
        (vertsFor config env f0 config.rootfs_size 0
          (nChunks config.rootfs_size config.chunk_size)
          st0.data_file_size).get ⟨i, hi2⟩ := List.get_of_eq hgr _
    rw [heq, hget]
    exact ⟨by simp, by simp⟩
  exact ⟨by rw [hfinal, hglen],
    fun g0 hg0 => ⟨hglen, hgets g0 hg0⟩⟩

/-! ### Claim C9: the progress reporter -/

/-- Spec-side progress value, following the claim's words: progress is
`floor(100 * (chunk_offset + raw_size) / partition_size)`, where chunk
`i` has offset `i * chunk_size` and raw (requested) size
`min(remaining, chunk_size)`. -/
def progressSpec (S c i : Nat) : Int := ((100 * (i * c + chunkReq S c i)) / S : Nat)

/-- Spec-side progress log, following the claim's words: a line is
emitted exactly when the progress exceeds the last reported value by at
least 10, or equals 100, and is suppressed otherwise; the watermark is
per partition (each partition processes its own chunk list from a fresh
watermark). -/
def specLog (S c : Nat) : List Nat → Int → List Int
  | [], _ => []
  | i :: rest, lp =>
    if lp + 10 ≤ progressSpec S c i ∨ progressSpec S c i = 100 then
      progressSpec S c i :: specLog S c rest (progressSpec S c i)
    else specLog S c rest lp

theorem progOf_eq_progressSpec (config : PayloadGenerationConfig) (env : Env)
    (file : Blob) (S i : Nat) :
    progOf config env file S i = progressSpec S config.chunk_size i := by
  unfold progOf progressSpec
  rw [procFor_offset, procFor_buffer_in_length, Nat.mul_comm]

theorem progressSpec_le_100 {S c : Nat} (hc : 0 < c) {i : Nat}
    (hi : i < nChunks S c) : progressSpec S c i ≤ 100 := by
  have hic := (lt_nChunks_iff hc i).mp hi
  have hS : 0 < S := by omega
  have hle : i * c + chunkReq S c i ≤ S := by
    unfold chunkReq
    omega
  unfold progressSpec
  have h1 : 100 * (i * c + chunkReq S c i) ≤ 100 * S := by omega
  have h2 : (100 * (i * c + chunkReq S c i)) / S ≤ (100 * S) / S :=
    Nat.div_le_div_right h1
  have h3 : (100 * S) / S = 100 := by
    rw [Nat.mul_comm]
    exact Nat.mul_div_cancel_left _ hS
  omega

theorem progressSpec_eq_100_imp {S c : Nat} (hc : 0 < c) {i : Nat}
    (hi : i < nChunks S c) (h : progressSpec S c i = 100) :
    nChunks S c ≤ i + 1 := by
  have hic := (lt_nChunks_iff hc i).mp hi
  have hS : 0 < S := by omega
  unfold progressSpec at h
  have hnat : (100 * (i * c + chunkReq S c i)) / S = 100 := by exact_mod_cast h
  have hge := (Nat.le_div_iff_mul_le hS).mp (le_of_eq hnat.symm)
  have hSle : S ≤ i * c + chunkReq S c i := by omega
  by_contra hlt
  rw [Nat.not_le] at hlt
  have h2 := (lt_nChunks_iff hc (i + 1)).mp hlt
  rw [Nat.add_mul, Nat.one_mul] at h2
  unfold chunkReq at hSle
  omega

theorem codeLog_eq_specLog (config : PayloadGenerationConfig) (env : Env)
    (file : Blob) (S : Nat) (hc : 0 < config.chunk_size) :
    ∀ (k j : Nat) (lp : Int),
      j + k ≤ nChunks S config.chunk_size → lp < 100 →
      codeLog config env file S (List.range' j k) lp =
        specLog S config.chunk_size (List.range' j k) lp := by
  intro k
  induction k with
  | zero => intro j lp _ _; rfl
  | succ k ih =>
    intro j lp hjk hlp
    rw [range'_cons]
    simp only [codeLog, specLog]
    rw [← progOf_eq_progressSpec config env file S j]
    have hj : j < nChunks S config.chunk_size := by omega
    have h100 : progOf config env file S j ≤ 100 := by
      rw [progOf_eq_progressSpec]
      exact progressSpec_le_100 hc hj
    by_cases hcnd : lp + 10 ≤ progOf config env file S j ∨
        progOf config env file S j = 100
    · have hlt : lp < progOf config env file S j := by
        rcases hcnd with h | h <;> omega
      rw [if_pos ⟨hlt, hcnd⟩, if_pos hcnd]
      by_cases h100e : progOf config env file S j = 100
      · have hend : nChunks S config.chunk_size ≤ j + 1 := by
          refine progressSpec_eq_100_imp hc hj ?_
          rw [← progOf_eq_progressSpec config env file S j]
          exact h100e
        have hk0 : k = 0 := by omega
        subst hk0
        rfl
      · have := ih (j + 1) (progOf config env file S j) (by omega) (by omega)
        rw [this]
    · rw [if_neg (fun hand => hcnd hand.2), if_neg hcnd]
      exact ih (j + 1) lp (by omega) hlp

/-- C9: in a successful run starting with an empty log, the sequence of
emitted progress log lines is exactly the spec's: after each completed
chunk, progress is `floor(100 * (chunk_offset + raw_size) /
partition_size)`, a line is emitted exactly when progress exceeds the
last reported value by at least 10 or equals 100 and suppressed
otherwise, and the watermark is per partition, reset when switching from
the rootfs to the kernel partition. -/
theorem C9_progress_reporting (config : PayloadGenerationConfig) (env : Env)
    (st0 stF : RunState)
    (hrun : Run config env st0 = (true, stF)) (hlog : st0.log = []) :
    stF.log =
      specLog config.rootfs_size config.chunk_size
        (List.range (nChunks config.rootfs_size config.chunk_size)) INT_MIN ++
      specLog config.kernel_size config.chunk_size
        (List.range (nChunks config.kernel_size config.chunk_size)) INT_MIN := by
  obtain ⟨hv, hcp, f0, f1, hf0, hf1, hstF, hW0, hW1⟩ := Run_true_closed hrun
  rw [hstF]
  unfold part1State part0State
  dsimp only
  rw [hlog]
  simp only [List.nil_append]
  rw [codeLog_eq_specLog config env f0 config.rootfs_size hcp _ 0 INT_MIN
    (by omega) (by decide)]
  rw [codeLog_eq_specLog config env f1 config.kernel_size hcp _ 0 INT_MIN
    (by omega) (by decide)]
  rw [List.range_eq_range', List.range_eq_range']

/-! ### Claims C7 and C8: failure behaviour -/

theorem seqGo_append (config : PayloadGenerationConfig) (env : Env)
    (partition : Nat) (file : Blob) (S : Nat) :
    ∀ (l1 l2 : List Nat) (acc acc' : RunState × Int),
      seqGo config env partition file S l1 acc = (true, acc') →
      seqGo config env partition file S (l1 ++ l2) acc =
        seqGo config env partition file S l2 acc' := by
  intro l1
  induction l1 with
  | nil =>
    intro l2 acc acc' h
    simp only [seqGo] at h
    injection h with _ h2
    subst h2
    rfl
  | cons i rest ih =>
    intro l2 acc acc' h
    rcases acc with ⟨st, lp⟩
    rcases hw : waitRes config env file S i with _ | _
    · rw [seqGo_cons_wait_false config env file S partition i rest st lp hw] at h
      exact absurd h (by simp)
    · rcases hwr : env.writeOk st.data_file_size (useBufFor config env file S i)
        with _ | _
      · rw [seqGo_cons_write_false config env file S partition i rest st lp hw hwr] at h
        exact absurd h (by simp)
      · rw [seqGo_cons_true config env file S partition i rest st lp hw hwr] at h
        show seqGo config env partition file S (i :: (rest ++ l2)) (st, lp) = _
        rw [seqGo_cons_true config env file S partition i (rest ++ l2) st lp hw hwr]
        exact ih l2 _ acc' h

theorem range'_split (j n : Nat) (h : j ≤ n) :
    List.range' 0 n = List.range' 0 j ++ List.range' j (n - j) := by
  have := List.range'_append 0 j (n - j) 1
  simp only [Nat.mul_one, Nat.zero_add, Nat.one_mul] at this
  rw [this]
  congr 1
  omega

/-- A positioned read that can deliver fewer bytes than requested (the
file ends before `offset + size`) makes the worker's `ReadAndCompress`
fail, so its `Wait` reports failure. -/
theorem Start_short_read_wait_false (bzip : Blob → Option Blob) (file : Blob)
    (off sz : Nat) (hsz : 0 < sz) (hshort : file.length < off + sz) :
    (((ChunkProcessor.create off sz).Start bzip file).Wait).1 = false := by
  unfold ChunkProcessor.create ChunkProcessor.Start
  dsimp only
  rw [if_neg]
  · simp [ChunkProcessor.Wait]
  · simp only [List.length_take, List.length_drop, List.length_replicate]
    omega

/-- Concrete inputs refuting C7's "no record present" part: a 2-byte
rootfs, one chunk, and a payload sink whose writes always fail. -/
def cfgC7 : PayloadGenerationConfig := ⟨true, 2, 1, 2, 0⟩

def envC7 : Env :=
  ⟨1, fun b => some (0 :: b), some [1, 2], some [],
    fun _ _ => true, fun _ _ => false⟩

/-- C7 counterexample: when the payload write for a chunk fails, the run
does fail, but an InstallOperation record for that chunk IS present in
the Graph (the record is appended before the write is attempted), so the
claim's "no InstallOperation record for that chunk is present" is false. -/
theorem C7_partial_record_counterexample :
    (Run cfgC7 envC7 st0W).1 = false ∧
      (Run cfgC7 envC7 st0W).2.graph.length = 1 ∧
      (Run cfgC7 envC7 st0W).2.data_file_size = 0 := by decide

/-- C7 (amended): if the payload-stream write for rootfs chunk `k` fails
(after chunks `0..k-1` completed), the run fails and `data_file_size` is
left unchanged by the failed write — it still equals the value after the
`k` successful chunks, as it is advanced only strictly after a successful
write, and no bytes are appended for the failed chunk — but a
partially-populated InstallOperation record for that chunk IS present in
the Graph (with `type` and `data_offset` set and `data_length`/extents
still unset), and its index was appended to FinalOrder, because the
record is created before the write is attempted. -/
theorem C7_write_failure_behavior (config : PayloadGenerationConfig)
    (env : Env) (st0 : RunState) (f0 : Blob) (k : Nat)
    (hv : config.valid = true) (hcp : 0 < config.chunk_size)
    (hf0 : env.file0 = some f0)
    (hS : ∀ p o, env.startOk p o = true)
    (hg : st0.graph = []) (hfo : st0.final_order = [])
    (hkn : k < nChunks config.rootfs_size config.chunk_size)
    (hw : ∀ t, t ≤ k → waitRes config env f0 config.rootfs_size t = true)
    (hwr : ∀ t, t < k →
      env.writeOk (st0.data_file_size + totLen config env f0 config.rootfs_size 0 t)
        (useBufFor config env f0 config.rootfs_size t) = true)
    (hfail : env.writeOk
      (st0.data_file_size + totLen config env f0 config.rootfs_size 0 k)
      (useBufFor config env f0 config.rootfs_size k) = false) :
    (Run config env st0).1 = false ∧
    (Run config env st0).2.data_file_size =
      st0.data_file_size + totLen config env f0 config.rootfs_size 0 k ∧
    (Run config env st0).2.payload =
      st0.payload ++ bufCat config env f0 config.rootfs_size 0 k ∧
    (Run config env st0).2.graph =
      vertsFor config env f0 config.rootfs_size 0 k st0.data_file_size ++
        [⟨rootfsLabel (k : Int),
          partialOp config env f0 config.rootfs_size k
            (st0.data_file_size + totLen config env f0 config.rootfs_size 0 k)⟩] ∧
    (Run config env st0).2.final_order = List.range (k + 1) := by
  have hpre := seqGo_part0_of config env f0 config.rootfs_size k 0 st0 INT_MIN
    (fun t ht => by simpa using hw t (by omega))
    (fun t ht => by simpa using hwr t (by omega))
  have hsplit := range'_split k (nChunks config.rootfs_size config.chunk_size)
    (le_of_lt hkn)
  have hstep : List.range' k (nChunks config.rootfs_size config.chunk_size - k) =
      k :: List.range' (k + 1)
        (nChunks config.rootfs_size config.chunk_size - k - 1) := by
    have h1 : nChunks config.rootfs_size config.chunk_size - k =
        (nChunks config.rootfs_size config.chunk_size - k - 1) + 1 := by omega
    conv_lhs => rw [h1, range'_cons]
  have hmid := seqGo_append config env 0 f0 config.rootfs_size
    (List.range' 0 k)
    (List.range' k (nChunks config.rootfs_size config.chunk_size - k))
    (st0, INT_MIN) _ hpre
  have hPdfs : (part0State config env f0 config.rootfs_size 0 k st0 INT_MIN).data_file_size =
      st0.data_file_size + totLen config env f0 config.rootfs_size 0 k := rfl
  have hfail2 : env.writeOk
      (part0State config env f0 config.rootfs_size 0 k st0 INT_MIN).data_file_size
      (useBufFor config env f0 config.rootfs_size k) = false := by
    rw [hPdfs]
    exact hfail
  have hfull : seqGo config env 0 f0 config.rootfs_size
      (List.range' 0 (nChunks config.rootfs_size config.chunk_size))
      (st0, INT_MIN) =
      (false,
        (emitPartial config env f0 config.rootfs_size 0 k
          (part0State config env f0 config.rootfs_size 0 k st0 INT_MIN),
         codeLast config env f0 config.rootfs_size (List.range' 0 k) INT_MIN)) := by
    rw [hsplit, hmid, hstep]
    exact seqGo_cons_write_false config env f0 config.rootfs_size 0 k _ _ _
      (hw k (le_refl k)) hfail2
  have hrun := Run_part0_fail hv hcp hf0 (fun o => hS 0 o) hfull
  rw [hrun]
  have hPgraph : (part0State config env f0 config.rootfs_size 0 k st0 INT_MIN).graph =
      vertsFor config env f0 config.rootfs_size 0 k st0.data_file_size := by
    unfold part0State
    dsimp only
    rw [hg]
    simp
  have hPfo : (part0State config env f0 config.rootfs_size 0 k st0 INT_MIN).final_order =
      List.range' 0 k := by
    unfold part0State
    dsimp only
    rw [hfo, hg]
    simp
  have hPpay : (part0State config env f0 config.rootfs_size 0 k st0 INT_MIN).payload =
      st0.payload ++ bufCat config env f0 config.rootfs_size 0 k := rfl
  refine ⟨rfl, ?_, ?_, ?_, ?_⟩
  · unfold emitPartial
    rw [if_pos rfl]
    exact hPdfs
  · unfold emitPartial
    rw [if_pos rfl]
    exact hPpay
  · unfold emitPartial
    rw [if_pos rfl]
    show (part0State config env f0 config.rootfs_size 0 k st0 INT_MIN).graph ++
        [⟨rootfsLabel (k : Int),
          partialOp config env f0 config.rootfs_size k
            (part0State config env f0 config.rootfs_size 0 k st0 INT_MIN).data_file_size⟩] = _
    rw [hPgraph, hPdfs]
  · unfold emitPartial
    rw [if_pos rfl]
    show (part0State config env f0 config.rootfs_size 0 k st0 INT_MIN).final_order ++
        [(part0State config env f0 config.rootfs_size 0 k st0 INT_MIN).graph.length] = _
    rw [hPfo, hPgraph, vertsFor_length]
    rw [← List.range_eq_range', ← List.range_succ]

/-- C8: if rootfs chunk `k`'s worker fails its wait — in particular
whenever its positioned read would return fewer bytes than requested
because the source file is shorter than the byte range `[k*chunk_size,
k*chunk_size + requested)` — the whole run fails and no InstallOperation
is emitted for that chunk: the graph holds exactly the `k` records of the
fully-processed earlier chunks, and `FinalOrder` is `[0, …, k-1]`.  The
first conjunct states the short-read trigger generically, the last ties
it to the run's own workers: a source file shorter than a chunk's range
makes that chunk's `Wait` report failure. -/
theorem C8_short_read_fails_run (config : PayloadGenerationConfig)
    (env : Env) (st0 : RunState) (f0 : Blob) (k : Nat)
    (hv : config.valid = true) (hcp : 0 < config.chunk_size)
    (hf0 : env.file0 = some f0)
    (hS : ∀ p o, env.startOk p o = true)
    (hg : st0.graph = []) (hfo : st0.final_order = [])
    (hkn : k < nChunks config.rootfs_size config.chunk_size)
    (hw : ∀ t, t < k → waitRes config env f0 config.rootfs_size t = true)
    (hwr : ∀ t, t < k →
      env.writeOk (st0.data_file_size + totLen config env f0 config.rootfs_size 0 t)
        (useBufFor config env f0 config.rootfs_size t) = true)
    (hkfail : waitRes config env f0 config.rootfs_size k = false) :
    (∀ (bz : Blob → Option Blob) (file : Blob) (off sz : Nat),
      0 < sz → file.length < off + sz →
      (((ChunkProcessor.create off sz).Start bz file).Wait).1 = false) ∧
    (Run config env st0).1 = false ∧
    (Run config env st0).2.graph =
      vertsFor config env f0 config.rootfs_size 0 k st0.data_file_size ∧
    (Run config env st0).2.graph.length = k ∧
    (Run config env st0).2.final_order = List.range k ∧
    (Run config env st0).2.data_file_size =
      st0.data_file_size + totLen config env f0 config.rootfs_size 0 k ∧
    (∀ i, i < nChunks config.rootfs_size config.chunk_size →
      f0.length < i * config.chunk_size +
        chunkReq config.rootfs_size config.chunk_size i →
      waitRes config env f0 config.rootfs_size i = false) := by
  have hpre := seqGo_part0_of config env f0 config.rootfs_size k 0 st0 INT_MIN
    (fun t ht => by simpa using hw t (by omega))
    (fun t ht => by simpa using hwr t (by omega))
  have hsplit := range'_split k (nChunks config.rootfs_size config.chunk_size)
    (le_of_lt hkn)
  have hstep : List.range' k (nChunks config.rootfs_size config.chunk_size - k) =
      k :: List.range' (k + 1)
        (nChunks config.rootfs_size config.chunk_size - k - 1) := by
    have h1 : nChunks config.rootfs_size config.chunk_size - k =
        (nChunks config.rootfs_size config.chunk_size - k - 1) + 1 := by omega
    conv_lhs => rw [h1, range'_cons]
  have hmid := seqGo_append config env 0 f0 config.rootfs_size
    (List.range' 0 k)
    (List.range' k (nChunks config.rootfs_size config.chunk_size - k))
    (st0, INT_MIN) _ hpre
  have hfull : seqGo config env 0 f0 config.rootfs_size
      (List.range' 0 (nChunks config.rootfs_size config.chunk_size))
      (st0, INT_MIN) =
      (false,
        (part0State config env f0 config.rootfs_size 0 k st0 INT_MIN,
         codeLast config env f0 config.rootfs_size (List.range' 0 k) INT_MIN)) := by
    rw [hsplit, hmid, hstep]
    exact seqGo_cons_wait_false config env f0 config.rootfs_size 0 k _ _ _ hkfail
  have hrun := Run_part0_fail hv hcp hf0 (fun o => hS 0 o) hfull
  rw [hrun]
  have hPgraph : (part0State config env f0 config.rootfs_size 0 k st0 INT_MIN).graph =
      vertsFor config env f0 config.rootfs_size 0 k st0.data_file_size := by
    unfold part0State
    dsimp only
    rw [hg]
    simp
  have hPfo : (part0State config env f0 config.rootfs_size 0 k st0 INT_MIN).final_order =
      List.range' 0 k := by
    unfold part0State
    dsimp only
    rw [hfo, hg]
    simp
  refine ⟨fun bz file off sz h1 h2 => Start_short_read_wait_false bz file off sz h1 h2,
    rfl, hPgraph, by rw [hPgraph, vertsFor_length], by rw [hPfo, List.range_eq_range'],
    rfl, ?_⟩
  intro i hi hshort
  have hszpos : 0 < chunkReq config.rootfs_size config.chunk_size i := by
    have := (lt_nChunks_iff hcp i).mp hi
    unfold chunkReq
    omega
  exact Start_short_read_wait_false env.bzip f0 (i * config.chunk_size)
    (chunkReq config.rootfs_size config.chunk_size i) hszpos hshort

/-! ### Witnesses: the claim theorems applied at concrete inputs -/

/-- The final state of the concrete successful witness run. -/
def stFW : RunState := (Run cfgW envW st0W).2

theorem C1_data_offsets_contiguous_witness :
    contiguousBetween st0W.data_file_size (opsOf stFW) stFW.data_file_size ∧
    (∀ (i : Nat) (h1 : i < (opsOf stFW).length) (h2 : i + 1 < (opsOf stFW).length),
      ((opsOf stFW).get ⟨i, h1⟩).data_offset +
          ((opsOf stFW).get ⟨i, h1⟩).data_length =
        ((opsOf stFW).get ⟨i + 1, h2⟩).data_offset) :=
  C1_data_offsets_contiguous cfgW envW st0W stFW rfl rfl rfl

theorem C2_ops_per_partition_witness :
    stFW.graph.length = cfgW.rootfs_size / cfgW.chunk_size ∧
    stFW.kernel_ops.length = cfgW.kernel_size / cfgW.chunk_size ∧
    ∀ f0 f1, envW.file0 = some f0 → envW.file1 = some f1 →
      (∀ i : Nat,
        (procFor cfgW envW f0 cfgW.rootfs_size i).offset = i * cfgW.chunk_size ∧
        (procFor cfgW envW f0 cfgW.rootfs_size i).buffer_in.length =
          min (cfgW.rootfs_size - i * cfgW.chunk_size) cfgW.chunk_size ∧
        (procFor cfgW envW f1 cfgW.kernel_size i).offset = i * cfgW.chunk_size ∧
        (procFor cfgW envW f1 cfgW.kernel_size i).buffer_in.length =
          min (cfgW.kernel_size - i * cfgW.chunk_size) cfgW.chunk_size) ∧
      (∀ (i : Nat) (hi : i < stFW.graph.length),
        (stFW.graph.get ⟨i, hi⟩).op =
          opFull cfgW envW f0 cfgW.rootfs_size i
            (st0W.data_file_size + totLen cfgW envW f0 cfgW.rootfs_size 0 i)) ∧
      (∀ (i : Nat) (hi : i < stFW.kernel_ops.length),
        stFW.kernel_ops.get ⟨i, hi⟩ =
          opFull cfgW envW f1 cfgW.kernel_size i
            (st0W.data_file_size +
              totLen cfgW envW f0 cfgW.rootfs_size 0
                (nChunks cfgW.rootfs_size cfgW.chunk_size) +
              totLen cfgW envW f1 cfgW.kernel_size 0 i)) :=
  C2_ops_per_partition cfgW envW st0W stFW rfl rfl rfl
    (by decide) (by decide) (by decide) (by decide)

theorem C3_destination_extents_witness :
    (∀ (i : Nat) (hi : i < stFW.graph.length),
      (stFW.graph.get ⟨i, hi⟩).op.dst_extents =
        [⟨(i * cfgW.chunk_size) / cfgW.block_size,
          cfgW.chunk_size / cfgW.block_size⟩]) ∧
    (∀ (i : Nat) (hi : i < stFW.kernel_ops.length),
      (stFW.kernel_ops.get ⟨i, hi⟩).dst_extents =
        [⟨(i * cfgW.chunk_size) / cfgW.block_size,
          cfgW.chunk_size / cfgW.block_size⟩]) :=
  C3_destination_extents cfgW envW st0W stFW rfl rfl rfl

theorem C4_compression_choice_witness :
    (∀ (i : Nat) (hi : i < stFW.graph.length),
      ((stFW.graph.get ⟨i, hi⟩).op.type = OpType.REPLACE_BZ ↔
        (procFor cfgW envW [1, 2, 3, 4] cfgW.rootfs_size i).buffer_compressed.length <
          (procFor cfgW envW [1, 2, 3, 4] cfgW.rootfs_size i).buffer_in.length) ∧
      (stFW.graph.get ⟨i, hi⟩).op.data_length =
        (useBufFor cfgW envW [1, 2, 3, 4] cfgW.rootfs_size i).length) ∧
    (∀ (i : Nat) (hi : i < stFW.kernel_ops.length),
      ((stFW.kernel_ops.get ⟨i, hi⟩).type = OpType.REPLACE_BZ ↔
        (procFor cfgW envW [7, 8] cfgW.kernel_size i).buffer_compressed.length <
          (procFor cfgW envW [7, 8] cfgW.kernel_size i).buffer_in.length) ∧
      (stFW.kernel_ops.get ⟨i, hi⟩).data_length =
        (useBufFor cfgW envW [7, 8] cfgW.kernel_size i).length) ∧
    (stFW.payload = st0W.payload ++
      bufCat cfgW envW [1, 2, 3, 4] cfgW.rootfs_size 0
        (nChunks cfgW.rootfs_size cfgW.chunk_size) ++
      bufCat cfgW envW [7, 8] cfgW.kernel_size 0
        (nChunks cfgW.kernel_size cfgW.chunk_size)) ∧
    ((∀ b out, envW.bzip b = some out → ¬ out.length < b.length) →
      (∀ (i : Nat) (hi : i < stFW.graph.length),
        (stFW.graph.get ⟨i, hi⟩).op.type = OpType.REPLACE ∧
        (stFW.graph.get ⟨i, hi⟩).op.data_length =
          (procFor cfgW envW [1, 2, 3, 4] cfgW.rootfs_size i).buffer_in.length) ∧
      (∀ (i : Nat) (hi : i < stFW.kernel_ops.length),
        (stFW.kernel_ops.get ⟨i, hi⟩).type = OpType.REPLACE ∧
        (stFW.kernel_ops.get ⟨i, hi⟩).data_length =
          (procFor cfgW envW [7, 8] cfgW.kernel_size i).buffer_in.length)) :=
  C4_compression_choice cfgW envW st0W stFW rfl rfl rfl [1, 2, 3, 4] [7, 8] rfl rfl

theorem C5_graph_and_final_order_witness :
    stFW.final_order = List.range stFW.graph.length ∧
    ∀ f0, envW.file0 = some f0 →
      stFW.graph.length = nChunks cfgW.rootfs_size cfgW.chunk_size ∧
      ∀ (i : Nat) (hi : i < stFW.graph.length),
        (stFW.graph.get ⟨i, hi⟩).file_name = rootfsLabel (i : Int) ∧
        (stFW.graph.get ⟨i, hi⟩).op =
          opFull cfgW envW f0 cfgW.rootfs_size i
            (st0W.data_file_size + totLen cfgW envW f0 cfgW.rootfs_size 0 i) :=
  C5_graph_and_final_order cfgW envW st0W stFW rfl rfl rfl rfl

theorem C7_write_failure_behavior_witness :
    (Run cfgC7 envC7 st0W).1 = false ∧
    (Run cfgC7 envC7 st0W).2.data_file_size =
      st0W.data_file_size + totLen cfgC7 envC7 [1, 2] cfgC7.rootfs_size 0 0 ∧
    (Run cfgC7 envC7 st0W).2.payload =
      st0W.payload ++ bufCat cfgC7 envC7 [1, 2] cfgC7.rootfs_size 0 0 ∧
    (Run cfgC7 envC7 st0W).2.graph =
      vertsFor cfgC7 envC7 [1, 2] cfgC7.rootfs_size 0 0 st0W.data_file_size ++
        [⟨rootfsLabel ((0 : Nat) : Int),
          partialOp cfgC7 envC7 [1, 2] cfgC7.rootfs_size 0
            (st0W.data_file_size + totLen cfgC7 envC7 [1, 2] cfgC7.rootfs_size 0 0)⟩] ∧
    (Run cfgC7 envC7 st0W).2.final_order = List.range (0 + 1) :=
  C7_write_failure_behavior cfgC7 envC7 st0W [1, 2] 0 rfl (by decide) rfl
    (fun p o => rfl) rfl rfl (by decide)
    (fun t ht => by
      have h0 : t = 0 := by omega
      subst h0
      decide)
    (fun t ht => absurd ht (by omega))
    (by decide)

/-- Concrete inputs for the C8 witness: a declared 4-byte rootfs whose
backing file holds only 3 bytes, so chunk 1's read is short. -/
def envC8 : Env :=
  ⟨1, fun b => some (0 :: b), some [1, 2, 3], some [7, 8],
    fun _ _ => true, fun _ _ => true⟩

theorem C8_short_read_fails_run_witness :
    (∀ (bz : Blob → Option Blob) (file : Blob) (off sz : Nat),
      0 < sz → file.length < off + sz →
      (((ChunkProcessor.create off sz).Start bz file).Wait).1 = false) ∧
    (Run cfgW envC8 st0W).1 = false ∧
    (Run cfgW envC8 st0W).2.graph =
      vertsFor cfgW envC8 [1, 2, 3] cfgW.rootfs_size 0 1 st0W.data_file_size ∧
    (Run cfgW envC8 st0W).2.graph.length = 1 ∧
    (Run cfgW envC8 st0W).2.final_order = List.range 1 ∧
    (Run cfgW envC8 st0W).2.data_file_size =
      st0W.data_file_size + totLen cfgW envC8 [1, 2, 3] cfgW.rootfs_size 0 1 ∧
    (∀ i, i < nChunks cfgW.rootfs_size cfgW.chunk_size →
      (List.length ([1, 2, 3] : Blob)) < i * cfgW.chunk_size +
        chunkReq cfgW.rootfs_size cfgW.chunk_size i →
      waitRes cfgW envC8 [1, 2, 3] cfgW.rootfs_size i = false) :=
  C8_short_read_fails_run cfgW envC8 st0W [1, 2, 3] 1 rfl (by decide) rfl
    (fun p o => rfl) rfl rfl (by decide)
    (fun t ht => by
      have h0 : t = 0 := by omega
      subst h0
      decide)
    (fun t ht => by
      have h0 : t = 0 := by omega
      subst h0
      decide)
    (by decide)

theorem C9_progress_reporting_witness :
    stFW.log =
      specLog cfgW.rootfs_size cfgW.chunk_size
        (List.range (nChunks cfgW.rootfs_size cfgW.chunk_size)) INT_MIN ++
      specLog cfgW.kernel_size cfgW.chunk_size
        (List.range (nChunks cfgW.kernel_size cfgW.chunk_size)) INT_MIN :=
  C9_progress_reporting cfgW envW st0W stFW rfl rfl

end FullUpdate
